import Mathlib

/-!
# ProjectionsDescription

A shallow embedding of `src/Storages/ProjectionsDescription.cpp`: the description of one
projection (`ProjectionDescription`), its two factories, `calculate`, and the ordered, named
collection `ProjectionsDescription` with `has`, `get`, `add`, `remove`, `toString`, `parse`.

Conventions of the embedding.
* A C++ exception is a value of `ErrorCode` carried by `Except`; a mutating member function
  returns its outcome together with the object state it leaves behind.
* The syntax tree is a closed variant type (`AST`); `clone` is the identity on values.
* `std::list<ProjectionDescription>` is a list of nodes, each with an address; a stored
  `std::list` iterator is the address of its node, which stays valid while other nodes are
  inserted or erased. A position used only inside one call (`cbegin`, `cend`, the result of
  `std::find_if`) is the index of the node in the list, `cend` being the length.
* Functions of other translation units (query analysis, key analysis, parser, formatter,
  pipeline execution) are fields of `Externals`.
* In `calculate`, where a clone of the stored query is modified, an `ASTPtr` is an address in
  an `ASTHeap`; a null pointer that the source dereferences gives `none`.
-/

namespace DB

/-- The error codes declared in `namespace ErrorCodes` of the translation unit; `OTHER` stands
for a code of another translation unit, carried by an exception a collaborator throws. -/
inductive ErrorCode where
  | INCORRECT_QUERY
  | NO_SUCH_PROJECTION_IN_TABLE
  | ILLEGAL_PROJECTION
  | NOT_IMPLEMENTED
  | LOGICAL_ERROR
  | OTHER (code : Nat)
  deriving DecidableEq, Repr

/-- Syntax tree nodes the translation unit builds or inspects. `function` carries its
`arguments` node (an expression list); the two query nodes carry their optional clauses. -/
inductive AST where
  | identifier (name : String)
  | literal (value : Int)
  | function (name : String) (arguments : AST)
  | expressionList (children : List AST)
  | projectionSelectQuery (withExpr select groupBy orderBy : Option AST)
  | selectQuery (withExpr select whereExpr groupBy orderBy : Option AST)
  | projectionDeclaration (name : String) (query : Option AST)

/-- Embeds `IAST::children` for the node kinds whose children the translation unit reads. -/
def AST.children : AST → List AST
  | .expressionList cs => cs
  | .function _ arguments => [arguments]
  | .projectionDeclaration _ (some q) => [q]
  | _ => []

/-- Embeds `IAST::clone`: a deep copy, which for values is the value itself. -/
def AST.clone (a : AST) : AST := a

/-- Embeds `makeASTFunction(name, args...)`: a function node over an expression list of the arguments. -/
def makeASTFunction (name : String) (args : List AST) : AST :=
  .function name (.expressionList args)

/-- Embeds `ProjectionDescription::Type`. -/
inductive ProjectionType where
  | Normal
  | Aggregate
  deriving DecidableEq, Repr

/-- Embeds `QueryProcessingStage::Enum`, the two stages `calculate` asks for. -/
inductive QueryProcessingStage where
  | FetchColumns
  | WithMergeableState
  deriving DecidableEq, Repr

/-- A column object as far as this unit looks at it: whether it is a `ColumnConst`, and its
number of rows. -/
structure IColumn where
  isConst : Bool
  size : Nat
  deriving DecidableEq, Repr

/-- Embeds `ColumnWithTypeAndName`: a possibly null column pointer, a type and a name. -/
structure ColumnWithTypeAndName where
  column : Option IColumn
  type : String
  name : String
  deriving DecidableEq, Repr

/-- Embeds `Block`: an ordered list of columns. -/
abbrev Block := List ColumnWithTypeAndName

/-- Embeds `NamesAndTypesList`. -/
abbrev NamesAndTypesList := List (String × String)

/-- Embeds `ColumnsDescription`, constructed from a `NamesAndTypesList`. -/
structure ColumnsDescription where
  columns : NamesAndTypesList
  deriving DecidableEq, Repr

/-- Embeds `Context`: the settings this unit writes. -/
structure Context where
  settings : List (String × Int)
  deriving DecidableEq, Repr

/-- Embeds `Block::columns`. -/
def Block.columns (b : Block) : Nat := b.length

/-- Embeds `Block::has`. -/
def Block.has (b : Block) (name : String) : Bool := b.any (fun c => c.name == name)

/-- Embeds `Block::insert`: appends the column. -/
def Block.insert (b : Block) (c : ColumnWithTypeAndName) : Block := b ++ [c]

/-- Embeds `Block::insertUnique`: appends the column unless the name is present. -/
def Block.insertUnique (b : Block) (c : ColumnWithTypeAndName) : Block :=
  if Block.has b c.name then b else Block.insert b c

/-- Embeds `Block::getNames`. -/
def Block.getNames (b : Block) : List String := b.map (fun c => c.name)

/-- Embeds `Block::getNamesAndTypesList`. -/
def Block.getNamesAndTypesList (b : Block) : NamesAndTypesList := b.map (fun c => (c.name, c.type))

/-- Embeds `Block::getPositionByName`, for a name that is present. -/
def Block.getPositionByName (b : Block) (name : String) : Nat :=
  b.findIdx (fun c => c.name == name)

/-- Columns of `b` from position `i` on, without those whose position is in `positions`. -/
def Block.eraseFrom (positions : List Nat) : Nat → Block → Block
  | _, [] => []
  | i, c :: rest =>
    if i ∈ positions then Block.eraseFrom positions (i + 1) rest
    else c :: Block.eraseFrom positions (i + 1) rest

/-- Embeds `Block::erase(const std::set<size_t> &)`. -/
def Block.erase (b : Block) (positions : List Nat) : Block := Block.eraseFrom positions 0 b

/-- Embeds `isColumnConst(*column)` / `typeid_cast<const ColumnConst *>` on a possibly null column. -/
def ColumnWithTypeAndName.isConstColumn (c : ColumnWithTypeAndName) : Bool :=
  match c.column with
  | some col => col.isConst
  | none => false

/-- Embeds `KeyDescription`, with the required columns of its `expression`. -/
structure KeyDescription where
  definition_ast : Option AST
  requiredColumnsWithTypes : NamesAndTypesList

/-- Embeds `KeyDescription::buildEmptyKey`. -/
def KeyDescription.buildEmptyKey : KeyDescription :=
  { definition_ast := none, requiredColumnsWithTypes := [] }

/-- Embeds `StorageInMemoryMetadata`, the members this unit sets. -/
structure StorageInMemoryMetadata where
  columns : ColumnsDescription := { columns := [] }
  partition_key : KeyDescription := KeyDescription.buildEmptyKey
  sorting_key : KeyDescription := KeyDescription.buildEmptyKey
  primary_key : KeyDescription := KeyDescription.buildEmptyKey

/-- Modelled from the spec: the members of `ProjectionDescription`
(`Storages/ProjectionsDescription.h` is not among the sources). The spec's data model lists
them; a default-constructed description has type `Normal` and `key_size` 0 ("keySize: number
of grouping-key expressions (0 for Normal)", a value the `Normal` path of the factory never
assigns). -/
structure ProjectionDescription where
  definition_ast : Option AST := none
  query_ast : Option AST := none
  name : String := ""
  type : ProjectionType := ProjectionType.Normal
  required_columns : List String := []
  sample_block : Block := []
  sample_block_for_keys : Block := []
  metadata : Option StorageInMemoryMetadata := none
  key_size : Nat := 0
  primary_key_max_column_name : String := ""
  partition_value_indices : List Nat := []

/-- What an `InterpreterSelectQuery` built over a query exposes to this unit. -/
structure SelectAnalysis where
  requiredColumns : List String
  sampleBlock : Block
  hasAggregation : Bool
  need_aggregate : Bool
  aggregationKeys : NamesAndTypesList

/-- Declarations used by the translation unit whose definitions live in other files. -/
structure Externals where
  /-- Embeds `ASTProjectionSelectQuery::cloneToASTSelect`. -/
  cloneToASTSelect : AST → AST
  /-- Embeds `InterpreterSelectQuery(query, context, storage over columns, options)`. -/
  interpret : AST → Context → ColumnsDescription → Except ErrorCode SelectAnalysis
  /-- Embeds `KeyDescription::getSortingKeyFromAST`. -/
  getSortingKeyFromAST : Option AST → ColumnsDescription → Context → Except ErrorCode KeyDescription
  /-- Embeds `KeyDescription::getKeyFromAST`. -/
  getKeyFromAST : Option AST → ColumnsDescription → Context → Except ErrorCode KeyDescription
  /-- Embeds `KeyDescription::moduloToModuloLegacyRecursive`. -/
  moduloToModuloLegacyRecursive : AST → AST
  /-- Embeds `IAST::getColumnName`. -/
  getColumnName : AST → String
  /-- Embeds `IAST::formatWithSecretsOneLine`. -/
  formatWithSecretsOneLine : AST → String
  /-- Embeds `parseQuery` with a `ParserProjectionDeclarationList`. -/
  parseProjectionDeclarationList : String → Except ErrorCode AST
  /-- Embeds `InterpreterSelectQuery(query, context, Pipe over the block, options).buildQueryPipeline()`
  resized to one stream: the blocks it yields, in order. -/
  buildQueryPipeline :
    Option AST → Context → Block → QueryProcessingStage → Except ErrorCode (List Block)
  /-- Embeds `PlanSquashingTransform(header, min_block_size_rows, min_block_size_bytes)` on a stream. -/
  planSquashing : Nat → Nat → List Block → List Block
  /-- Embeds `ApplySquashingTransform(header, min_block_size_rows, min_block_size_bytes)` on a stream. -/
  applySquashing : Nat → Nat → List Block → List Block
  /-- Embeds `ProjectionDescription::MINMAX_COUNT_PROJECTION_NAME`. -/
  MINMAX_COUNT_PROJECTION_NAME : String
  /-- Embeds `RowExistsColumn::name`. -/
  rowExistsColumnName : String

/-- Embeds `ProjectionDescription::clone`. -/
def ProjectionDescription.clone (p : ProjectionDescription) : ProjectionDescription :=
  { definition_ast := p.definition_ast.map AST.clone
    query_ast := p.query_ast.map AST.clone
    name := p.name
    type := p.type
    required_columns := p.required_columns
    sample_block := p.sample_block
    sample_block_for_keys := p.sample_block_for_keys
    metadata := p.metadata
    key_size := p.key_size
    primary_key_max_column_name := p.primary_key_max_column_name
    partition_value_indices := p.partition_value_indices }

/-- The node with its children replaced, for an expression list. -/
def AST.setChildren : AST → List AST → AST
  | .expressionList _, cs => .expressionList cs
  | a, _ => a

/-- Embeds `ProjectionDescription::operator==`: equal names and, the names being equal, equal
one-line texts of the definitions; `none` when a definition pointer that the source
dereferences is null. -/
def ProjectionDescription.eq (ext : Externals) (a other : ProjectionDescription) : Option Bool :=
  if a.name ≠ other.name then some false
  else
    match a.definition_ast, other.definition_ast with
    | some x, some y =>
      some (ext.formatWithSecretsOneLine x == ext.formatWithSecretsOneLine y)
    | _, _ => none

/-- The number of expressions of a GROUP BY clause, 0 when the clause is absent. -/
def groupByCount (groupBy : Option AST) : Nat :=
  match groupBy with
  | some group_expression_list => group_expression_list.children.length
  | none => 0

/-- Embeds `ASTSelectQuery::groupBy` of a node, `none` when it is not a SELECT query or has no
GROUP BY. -/
def AST.groupBy : AST → Option AST
  | .selectQuery _ _ _ g _ => g
  | _ => none

/-- The aggregation branch of `getProjectionFromAST` after the ORDER BY check: the key size
and the sorting and primary keys derived from the GROUP BY list of the SELECT query. -/
def aggregateKeys (ext : Externals) (groupBy : Option AST) (sample_block : Block)
    (query_context : Context) : Except ErrorCode (Nat × KeyDescription × KeyDescription) :=
  match groupBy with
  | some group_expression_list =>
    let sized : Nat × AST :=
      if group_expression_list.children.length = 1 then
        (1, AST.identifier (ext.getColumnName (group_expression_list.children.headD
          (AST.expressionList []))))
      else
        let arguments := group_expression_list.clone
        (arguments.children.length,
          AST.function "tuple"
            (arguments.setChildren
              (arguments.children.map (fun child => AST.identifier (ext.getColumnName child)))))
    let columns_with_state : ColumnsDescription :=
      { columns := Block.getNamesAndTypesList sample_block }
    match ext.getSortingKeyFromAST (some sized.2) columns_with_state query_context with
    | .error e => .error e
    | .ok sorting_key =>
      match ext.getKeyFromAST (some sized.2) columns_with_state query_context with
      | .error e => .error e
      | .ok primary_key => .ok (sized.1, sorting_key, { primary_key with definition_ast := none })
  | none => .ok (0, KeyDescription.buildEmptyKey, KeyDescription.buildEmptyKey)

/-- The tail of `getProjectionFromAST`: the sample block extended by the columns the sorting
key requires, the constant-column check, and the metadata. -/
def finishProjection (result : ProjectionDescription) (sorting_key primary_key : KeyDescription) :
    Except ErrorCode ProjectionDescription :=
  let block : Block :=
    sorting_key.requiredColumnsWithTypes.foldl
      (fun b nt => Block.insertUnique b { column := none, type := nt.2, name := nt.1 })
      result.sample_block
  if block.any (fun c => c.isConstColumn) then .error ErrorCode.NOT_IMPLEMENTED
  else
    .ok { result with
      metadata := some
        { columns := { columns := Block.getNamesAndTypesList block }
          partition_key := KeyDescription.buildEmptyKey
          sorting_key := sorting_key
          primary_key := primary_key } }

/-- The block `getProjectionFromAST` checks for constant columns: the sample block followed by
the columns the sorting key requires that the block does not have yet, each with a null
column pointer. -/
def extendedSampleBlock (sample_block : Block) (sorting_key : KeyDescription) : Block :=
  sorting_key.requiredColumnsWithTypes.foldl
    (fun b nt => Block.insertUnique b { column := none, type := nt.2, name := nt.1 })
    sample_block

/-- Embeds `ProjectionDescription::getProjectionFromAST`. A failing `as<T &>` cast throws
`LOGICAL_ERROR`. -/
def ProjectionDescription.getProjectionFromAST (ext : Externals) (definition_ast : AST)
    (columns : ColumnsDescription) (query_context : Context) :
    Except ErrorCode ProjectionDescription :=
  match definition_ast with
  | .projectionDeclaration name none =>
    if name = "" then .error ErrorCode.INCORRECT_QUERY
    else .error ErrorCode.INCORRECT_QUERY
  | .projectionDeclaration name (some (.projectionSelectQuery w s g orderBy)) =>
    if name = "" then .error ErrorCode.INCORRECT_QUERY
    else
      let query_ast := ext.cloneToASTSelect (.projectionSelectQuery w s g orderBy)
      match ext.interpret query_ast query_context columns with
      | .error e => .error e
      | .ok select =>
        let result : ProjectionDescription :=
          { definition_ast := some (AST.clone definition_ast)
            name := name
            query_ast := some query_ast
            required_columns := select.requiredColumns
            sample_block := select.sampleBlock }
        match query_ast with
        | .selectQuery _ _ _ groupBy _ =>
          if select.hasAggregation then
            if orderBy.isSome then .error ErrorCode.ILLEGAL_PROJECTION
            else
              match aggregateKeys ext groupBy result.sample_block query_context with
              | .error e => .error e
              | .ok (key_size, sorting_key, primary_key) =>
                finishProjection
                  { result with
                    type := ProjectionType.Aggregate
                    key_size := key_size
                    sample_block_for_keys :=
                      select.aggregationKeys.foldl
                        (fun b key => Block.insert b { column := none, type := key.2, name := key.1 })
                        result.sample_block_for_keys }
                  sorting_key primary_key
          else
            match ext.getSortingKeyFromAST orderBy columns query_context with
            | .error e => .error e
            | .ok sorting_key =>
              match ext.getKeyFromAST orderBy columns query_context with
              | .error e => .error e
              | .ok primary_key =>
                finishProjection { result with type := ProjectionType.Normal }
                  sorting_key { primary_key with definition_ast := none }
        | _ => .error ErrorCode.LOGICAL_ERROR
  | .projectionDeclaration name (some _) =>
    if name = "" then .error ErrorCode.INCORRECT_QUERY
    else .error ErrorCode.LOGICAL_ERROR
  | _ => .error ErrorCode.INCORRECT_QUERY

/-- The SELECT list of the min-max-count projection: `min` and `max` of every minmax column,
then of the first primary key expression if there is one, then `count()`. -/
def minMaxCountSelectList (minmax_columns : List String) (primary_key_asts : List AST) :
    List AST :=
  minmax_columns.foldr
      (fun column acc =>
        makeASTFunction "min" [AST.identifier column] ::
          makeASTFunction "max" [AST.identifier column] :: acc)
      []
    ++ (match primary_key_asts with
        | [] => []
        | front :: _ => [makeASTFunction "min" [front.clone], makeASTFunction "max" [front.clone]])
    ++ [makeASTFunction "count" []]

/-- The select list of the min-max-count projection as the specification words it: for each
minmax column, in order, its `min` and its `max`; then `min` and `max` of the primary key; then
`count()`. -/
def expectedSelectList : List String → AST → List AST
  | [], pk =>
    [makeASTFunction "min" [pk], makeASTFunction "max" [pk], makeASTFunction "count" []]
  | c :: rest, pk =>
    makeASTFunction "min" [AST.identifier c] :: makeASTFunction "max" [AST.identifier c] ::
      expectedSelectList rest pk

/-- The GROUP BY of the min-max-count projection: the partition expressions, each rewritten by
`moduloToModuloLegacyRecursive`, when there are any. -/
def minMaxCountGroupBy (ext : Externals) (partition_columns : Option AST) : Option AST :=
  match partition_columns with
  | none => none
  | some pc =>
    if pc.children.isEmpty then none
    else some ((pc.clone.setChildren (pc.clone.children.map ext.moduloToModuloLegacyRecursive)).clone)

/-- The positions of the constant columns of a block, counted from `i`. -/
def constantPositions : Nat → Block → List Nat
  | _, [] => []
  | i, c :: rest =>
    if c.isConstColumn then i :: constantPositions (i + 1) rest
    else constantPositions (i + 1) rest

/-- Embeds `ProjectionDescription::getMinMaxCountProjection`. -/
def ProjectionDescription.getMinMaxCountProjection (ext : Externals)
    (columns : ColumnsDescription) (partition_columns : Option AST)
    (minmax_columns : List String) (primary_key_asts : List AST) (query_context : Context) :
    Except ErrorCode ProjectionDescription :=
  let select_query : AST :=
    .projectionSelectQuery none
      (some (.expressionList (minMaxCountSelectList minmax_columns primary_key_asts)))
      (minMaxCountGroupBy ext partition_columns) none
  let query_ast := ext.cloneToASTSelect select_query
  match ext.interpret query_ast query_context columns with
  | .error e => .error e
  | .ok select =>
    let sample_block : Block :=
      Block.erase select.sampleBlock (constantPositions 0 select.sampleBlock)
    let keys : List (String × String) :=
      if select.need_aggregate then
        select.aggregationKeys.filter (fun key => Block.has sample_block key.1)
      else []
    let sample_block_for_keys : Block :=
      keys.foldl (fun b key => Block.insert b { column := none, type := key.2, name := key.1 }) []
    let partition_value_indices : List Nat :=
      keys.foldl (fun v key => v ++ [Block.getPositionByName sample_block key.1]) []
    let primary_key_max_column_name : String :=
      if ¬ primary_key_asts.isEmpty ∧
          Block.columns sample_block
            = 2 * (minmax_columns.length + 1) + 1 + partition_value_indices.length then
        (Block.getNames sample_block).getD ((Block.getNames sample_block).length - 2) ""
      else ""
    .ok
      { definition_ast := some select_query
        name := ext.MINMAX_COUNT_PROJECTION_NAME
        query_ast := some query_ast
        required_columns := select.requiredColumns
        sample_block := sample_block
        sample_block_for_keys := sample_block_for_keys
        partition_value_indices := partition_value_indices
        primary_key_max_column_name := primary_key_max_column_name
        type := ProjectionType.Aggregate
        metadata := some
          { columns := { columns := Block.getNamesAndTypesList sample_block }
            partition_key := KeyDescription.buildEmptyKey
            sorting_key := KeyDescription.buildEmptyKey
            primary_key := KeyDescription.buildEmptyKey } }

/-- Embeds `ProjectionDescription::recalculateWithNewColumns`; `none` when the definition pointer is
null. -/
def ProjectionDescription.recalculateWithNewColumns (ext : Externals)
    (p : ProjectionDescription) (new_columns : ColumnsDescription) (query_context : Context) :
    Option (Except ErrorCode ProjectionDescription) :=
  p.definition_ast.map
    (fun d => ProjectionDescription.getProjectionFromAST ext d new_columns query_context)

/-- The syntax tree nodes `calculate` reaches through `ASTPtr`s: the address of a node and the
tree it holds. A pointer is an address; two pointers to the same address share the node. -/
abbrev ASTHeap := List (Nat × AST)

/-- The tree a pointer designates; `none` for a pointer that designates no node. -/
def ASTHeap.read : ASTHeap → Nat → Option AST
  | [], _ => none
  | (a, node) :: rest, ptr => if a = ptr then some node else ASTHeap.read rest ptr

/-- The address of a newly made node: one that no node of the heap has. -/
def ASTHeap.fresh (heap : ASTHeap) : Nat := (heap.map (fun e => e.1)).foldr max 0 + 1

/-- The call `ptr->clone()`: a new node holding a copy of the tree, and the pointer to it;
`none` when `ptr` designates no node. -/
def ASTHeap.clone (heap : ASTHeap) (ptr : Nat) : Option (Nat × ASTHeap) :=
  match heap.read ptr with
  | none => none
  | some tree => some (heap.fresh, heap ++ [(heap.fresh, tree.clone)])

/-- One node of the `std::list<ProjectionDescription>`: its address and the element it holds. -/
structure ListNode where
  addr : Nat
  value : ProjectionDescription

/-- Embeds `std::unordered_map<String, Container::iterator>::find`: the stored iterator (a node
address) of the key, if any. -/
def Map.find : List (String × Nat) → String → Option Nat
  | [], _ => none
  | (k, v) :: rest, key => if k = key then some v else Map.find rest key

/-- Embeds `std::unordered_map::contains`. -/
def Map.contains (m : List (String × Nat)) (key : String) : Bool := (Map.find m key).isSome

/-- The statement `map[key] = it`: the key is bound to `it`, replacing an earlier binding. -/
def Map.assign (m : List (String × Nat)) (key : String) (it : Nat) : List (String × Nat) :=
  (key, it) :: m.filter (fun e => decide (e.1 ≠ key))

/-- Embeds `std::unordered_map::erase` of the entry found for `key`. -/
def Map.erase (m : List (String × Nat)) (key : String) : List (String × Nat) :=
  m.filter (fun e => decide (e.1 ≠ key))

/-- Embeds `std::find_if(cbegin, cend, pred)`: the position of the first element satisfying `pred`,
the length of the list (`cend`) when there is none. -/
def find_if (pred : ProjectionDescription → Bool) : List ListNode → Nat
  | [] => 0
  | n :: rest => if pred n.value then 0 else find_if pred rest + 1

/-- Embeds `std::list::insert(pos, value)`: the node is linked in before position `pos`
(at the end when `pos` is `cend`). -/
def listInsert : List ListNode → Nat → ListNode → List ListNode
  | [], _, node => [node]
  | x :: rest, 0, node => node :: x :: rest
  | x :: rest, pos + 1, node => x :: listInsert rest pos node

/-- Embeds `std::list::erase(it)`: the node with address `it` is unlinked. -/
def listErase : List ListNode → Nat → List ListNode
  | [], _ => []
  | x :: rest, it => if x.addr = it then rest else x :: listErase rest it

/-- The address the allocator hands out for a new node: one not used by a node of the list. -/
def allocate (l : List ListNode) : Nat := (l.map (fun n => n.addr)).foldr max 0 + 1

/-- Dereferencing a stored iterator: the element of the node with that address; `none` when no
node of the list has it (undefined behaviour in the source). -/
def deref : List ListNode → Nat → Option ProjectionDescription
  | [], _ => none
  | x :: rest, it => if x.addr = it then some x.value else deref rest it

/-- Embeds `ProjectionsDescription`: the list `projections` and the name index `map`. -/
structure ProjectionsDescription where
  projections : List ListNode := []
  map : List (String × Nat) := []

namespace ProjectionsDescription

/-- The elements of the collection, in list order. -/
def values (C : ProjectionsDescription) : List ProjectionDescription :=
  C.projections.map (fun n => n.value)

/-- The names of the elements of the collection, in list order. -/
def names (C : ProjectionsDescription) : List String :=
  C.projections.map (fun n => n.value.name)

/-- Embeds `ProjectionsDescription::has`. -/
def has (C : ProjectionsDescription) (projection_name : String) : Bool :=
  Map.contains C.map projection_name

/-- Embeds `ProjectionsDescription::get`. The value `none` stands for dereferencing an iterator that
designates no node. -/
def get (C : ProjectionsDescription) (projection_name : String) :
    Except ErrorCode (Option ProjectionDescription) :=
  match Map.find C.map projection_name with
  | none => .error ErrorCode.NO_SUCH_PROJECTION_IN_TABLE
  | some it => .ok (deref C.projections it)

/-- Embeds `ProjectionsDescription::add`: the outcome of the call and the collection it leaves. -/
def add (C : ProjectionsDescription) (projection : ProjectionDescription)
    (after_projection : String) (first : Bool) (if_not_exists : Bool) :
    Except ErrorCode Unit × ProjectionsDescription :=
  if C.has projection.name then
    if if_not_exists then (.ok (), C)
    else (.error ErrorCode.ILLEGAL_PROJECTION, C)
  else
    let insert_it :=
      if first then 0
      else if after_projection ≠ "" then
        let it := find_if (fun projection_ => projection_.name == after_projection) C.projections
        if it ≠ C.projections.length then it + 1 else it
      else C.projections.length
    let it : ListNode := { addr := allocate C.projections, value := projection }
    (.ok (), { projections := listInsert C.projections insert_it it
               map := Map.assign C.map it.value.name it.addr })

/-- Embeds `ProjectionsDescription::remove`: the outcome of the call and the collection it leaves. -/
def remove (C : ProjectionsDescription) (projection_name : String) (if_exists : Bool) :
    Except ErrorCode Unit × ProjectionsDescription :=
  match Map.find C.map projection_name with
  | none =>
    if if_exists then (.ok (), C)
    else (.error ErrorCode.NO_SUCH_PROJECTION_IN_TABLE, C)
  | some it =>
    (.ok (), { projections := listErase C.projections it
               map := Map.erase C.map projection_name })

/-- Embeds `ProjectionsDescription::clone`. -/
def clone (C : ProjectionsDescription) : ProjectionsDescription :=
  C.values.foldl (fun other projection => (other.add projection.clone "" false false).2) {}

/-- The definition nodes of the elements, in order; `none` when one of the pointers is null. -/
def definitions : List ProjectionDescription → Option (List AST)
  | [] => some []
  | p :: rest =>
    match p.definition_ast, definitions rest with
    | some d, some ds => some (d :: ds)
    | _, _ => none

/-- Embeds `ProjectionsDescription::toString`; `none` when a definition pointer is null. -/
def toString (ext : Externals) (C : ProjectionsDescription) : Option String :=
  if C.projections.isEmpty then some ""
  else (definitions C.values).map (fun ds => ext.formatWithSecretsOneLine (.expressionList ds))

/-- The loop of `parse`: each declaration is turned into a definition and added. -/
def parseLoop (ext : Externals) (columns : ColumnsDescription) (query_context : Context) :
    List AST → ProjectionsDescription → Except ErrorCode ProjectionsDescription
  | [], result => .ok result
  | projection_ast :: rest, result =>
    match ProjectionDescription.getProjectionFromAST ext projection_ast columns query_context with
    | .error e => .error e
    | .ok projection =>
      match result.add projection "" false false with
      | (.error e, _) => .error e
      | (.ok _, result1) => parseLoop ext columns query_context rest result1

/-- Embeds `ProjectionsDescription::parse`. -/
def parse (ext : Externals) (str : String) (columns : ColumnsDescription)
    (query_context : Context) : Except ErrorCode ProjectionsDescription :=
  if str = "" then .ok {}
  else
    match ext.parseProjectionDeclarationList str with
    | .error e => .error e
    | .ok list => parseLoop ext columns query_context list.children {}

/-- Modelled from the spec: the formatter and the parser of projection declaration lists
(`IAST::formatWithSecretsOneLine` and `ParserProjectionDeclarationList` are not among the
sources). The spec's external interfaces give their law: "canonical text is the single-line
... rendering of the declaration-AST list; round-trip law: parse(toCanonicalText(X))
structurally equals X". For the declaration list `ds`: its one-line text is not empty, and the
parser reads that text back as the list `ds`. -/
def ReadsBack (ext : Externals) (ds : List AST) : Prop :=
  ext.formatWithSecretsOneLine (.expressionList ds) ≠ "" ∧
  ext.parseProjectionDeclarationList (ext.formatWithSecretsOneLine (.expressionList ds))
    = .ok (.expressionList ds)

/-- The collections obtained from the default-constructed one by calls of `add` and `remove`,
whatever their arguments and whether they return or throw. -/
inductive Reachable : ProjectionsDescription → Prop where
  | empty : Reachable {}
  | add (C : ProjectionsDescription) (projection : ProjectionDescription)
      (after_projection : String) (first if_not_exists : Bool) :
      Reachable C → Reachable (C.add projection after_projection first if_not_exists).2
  | remove (C : ProjectionsDescription) (projection_name : String) (if_exists : Bool) :
      Reachable C → Reachable (C.remove projection_name if_exists).2

/-- Mutual consistency of the list and the name index: node addresses and element names are
pairwise distinct, and the index binds a name to an address exactly when the node at that
address holds the element of that name. -/
structure Consistent (C : ProjectionsDescription) : Prop where
  addrs_nodup : (C.projections.map (fun n => n.addr)).Nodup
  names_nodup : C.names.Nodup
  index : ∀ (n : String) (it : Nat),
    Map.find C.map n = some it ↔ ∃ node ∈ C.projections, node.addr = it ∧ node.value.name = n

end ProjectionsDescription

end DB

/-! ## Concrete inputs -/

namespace DB.Examples

/-- The name a toy analyser gives a select expression: an identifier is its own name,
a function call the function name followed by "()". -/
def columnName : AST → String
  | .identifier n => n
  | .function n _ => n ++ "()"
  | _ => "_"

/-- Whether the expression is a call of one of the aggregate functions `min`, `max`, `count`,
`sum`. -/
def isAggregateCall : AST → Bool
  | .function n _ => n = "min" || n = "max" || n = "count" || n = "sum"
  | _ => false

/-- A toy query analysis: one non-constant output column per select expression; aggregation is
used when the select list calls an aggregate function or a GROUP BY is present; the
aggregation keys are the GROUP BY expressions. -/
def analyse : AST → Except ErrorCode SelectAnalysis
  | .selectQuery _ (some (.expressionList cs)) _ g _ =>
    .ok
      { requiredColumns := []
        sampleBlock :=
          (match g with
           | some gl => gl.children.map (fun c =>
               { column := some { isConst := false, size := 0 }, type := "T", name := columnName c })
           | none => [])
          ++ cs.map (fun c =>
            { column := some { isConst := false, size := 0 }, type := "T", name := columnName c })
        hasAggregation := cs.any isAggregateCall || g.isSome
        need_aggregate := cs.any isAggregateCall || g.isSome
        aggregationKeys :=
          match g with
          | some gl => gl.children.map (fun c => (columnName c, "T"))
          | none => [] }
  | _ => .error ErrorCode.LOGICAL_ERROR

/-- Toy collaborators. The SELECT-shaped query carries over the clauses of the projection
query; keys are accepted as given; the pipeline yields the input block once and squashing
passes a stream through; the parser reads nothing. -/
def ext : Externals where
  cloneToASTSelect := fun q =>
    match q with
    | .projectionSelectQuery w s g o => .selectQuery w s none g o
    | other => other
  interpret := fun q _ _ => analyse q
  getSortingKeyFromAST := fun a _ _ => .ok { definition_ast := a, requiredColumnsWithTypes := [] }
  getKeyFromAST := fun a _ _ => .ok { definition_ast := a, requiredColumnsWithTypes := [] }
  moduloToModuloLegacyRecursive := fun a => a
  getColumnName := columnName
  formatWithSecretsOneLine := fun _ => "text"
  parseProjectionDeclarationList := fun _ => .error ErrorCode.INCORRECT_QUERY
  buildQueryPipeline := fun _ _ block _ => .ok [block]
  planSquashing := fun _ _ stream => stream
  applySquashing := fun _ _ stream => stream
  MINMAX_COUNT_PROJECTION_NAME := "_minmax_count_projection"
  rowExistsColumnName := "_row_exists"

/-- The declaration `p (SELECT count())`: an aggregate function and no GROUP BY. -/
def declarationCount : AST :=
  .projectionDeclaration "p"
    (some (.projectionSelectQuery none (some (.expressionList [makeASTFunction "count" []]))
      none none))

/-- The declaration `q (SELECT x ORDER BY x)`. -/
def declarationOrdered : AST :=
  .projectionDeclaration "q"
    (some (.projectionSelectQuery none (some (.expressionList [AST.identifier "x"]))
      none (some (AST.identifier "x"))))

/-- The declaration `g (SELECT k, sum(x) GROUP BY k)`. -/
def declarationGrouped : AST :=
  .projectionDeclaration "g"
    (some (.projectionSelectQuery none
      (some (.expressionList [AST.identifier "k", makeASTFunction "sum" [AST.identifier "x"]]))
      (some (.expressionList [AST.identifier "k"])) none))

/-- An empty column set and a context without settings. -/
def noColumns : ColumnsDescription := { columns := [] }

/-- A context without settings. -/
def noSettings : Context := { settings := [] }

/-- A description of which only the name is set. -/
def named (n : String) : ProjectionDescription := { name := n }

/-- The collection built by adding "a" and then "b". -/
def collectionAB : ProjectionsDescription :=
  ((({} : ProjectionsDescription).add (named "a") "" false false).2.add
    (named "b") "" false false).2

/-- Toy collaborators whose parser reads every text as the one-element declaration list
`g (SELECT k, sum(x) GROUP BY k)`. -/
def extReadsBack : Externals :=
  { ext with
    parseProjectionDeclarationList := fun _ => .ok (.expressionList [declarationGrouped]) }

/-- The definition built from `g (SELECT k, sum(x) GROUP BY k)`. -/
def definitionGrouped : ProjectionDescription :=
  match ProjectionDescription.getProjectionFromAST extReadsBack declarationGrouped noColumns
      noSettings with
  | .ok p => p
  | .error _ => {}

/-- The collection holding `definitionGrouped`. -/
def collectionGrouped : ProjectionsDescription :=
  (({} : ProjectionsDescription).add definitionGrouped "" false false).2

/-- The declaration `o (SELECT k, sum(x) GROUP BY k ORDER BY k)`: aggregation together with
ORDER BY. -/
def declarationGroupedOrdered : AST :=
  .projectionDeclaration "o"
    (some (.projectionSelectQuery none
      (some (.expressionList [AST.identifier "k", makeASTFunction "sum" [AST.identifier "x"]]))
      (some (.expressionList [AST.identifier "k"])) (some (AST.identifier "k"))))

/-- A toy query analysis without aggregation: one output column per select expression,
constant-valued when the expression is a literal. -/
def analyseConstants : AST → Except ErrorCode SelectAnalysis
  | .selectQuery _ (some (.expressionList cs)) _ _ _ =>
    .ok
      { requiredColumns := []
        sampleBlock := cs.map (fun c =>
          { column := some
              { isConst := (match c with
                  | .literal _ => true
                  | _ => false)
                size := 0 }
            type := "T"
            name := columnName c })
        hasAggregation := false
        need_aggregate := false
        aggregationKeys := [] }
  | _ => .error ErrorCode.LOGICAL_ERROR

/-- Toy collaborators whose analysis is `analyseConstants`. -/
def extConstants : Externals :=
  { ext with interpret := fun q _ _ => analyseConstants q }

/-- The declaration `c (SELECT 1)`: the select list is a bare literal. -/
def declarationLiteral : AST :=
  .projectionDeclaration "c"
    (some (.projectionSelectQuery none (some (.expressionList [AST.literal 1])) none none))

end DB.Examples

/-! ## Lemmas on the name index and the node list -/

namespace DB

theorem Map.find_filter_ne (m : List (String × Nat)) (k n : String) :
    Map.find (m.filter (fun e => decide (e.1 ≠ k))) n = if n = k then none else Map.find m n := by
  induction m with
  | nil => simp [Map.find]
  | cons e rest ih =>
    obtain ⟨k0, v0⟩ := e
    by_cases h0 : k0 = k
    · subst h0
      simp only [List.filter, ne_eq, not_true_eq_false, decide_False, ih, Map.find]
      by_cases hn : n = k0
      · simp [hn]
      · have : ¬ k0 = n := fun h => hn h.symm
        simp [hn, this]
    · simp only [List.filter, ne_eq, h0, not_false_eq_true, decide_True, Map.find, ih]
      by_cases hn : n = k
      · subst hn
        simp [h0]
      · simp [hn]

theorem Map.find_assign (m : List (String × Nat)) (k : String) (v : Nat) (n : String) :
    Map.find (Map.assign m k v) n = if n = k then some v else Map.find m n := by
  unfold Map.assign
  by_cases hn : n = k
  · subst hn
    simp [Map.find]
  · have : ¬ k = n := fun h => hn h.symm
    simp only [Map.find, this, if_false, Map.find_filter_ne, hn]

theorem Map.find_erase (m : List (String × Nat)) (k n : String) :
    Map.find (Map.erase m k) n = if n = k then none else Map.find m n := by
  unfold Map.erase
  exact Map.find_filter_ne m k n

theorem listInsert_perm (l : List ListNode) (pos : Nat) (node : ListNode) :
    (listInsert l pos node).Perm (node :: l) := by
  induction l generalizing pos with
  | nil => simp [listInsert]
  | cons x rest ih =>
    cases pos with
    | zero => simp [listInsert]
    | succ k =>
      simp only [listInsert]
      exact ((ih k).cons x).trans (List.Perm.swap node x rest)

theorem mem_listInsert (l : List ListNode) (pos : Nat) (node x : ListNode) :
    x ∈ listInsert l pos node ↔ x = node ∨ x ∈ l := by
  rw [(listInsert_perm l pos node).mem_iff]
  simp

theorem listInsert_zero (l : List ListNode) (node : ListNode) :
    listInsert l 0 node = node :: l := by
  cases l <;> rfl

theorem listInsert_append (l1 l2 : List ListNode) (node : ListNode) :
    listInsert (l1 ++ l2) l1.length node = l1 ++ node :: l2 := by
  induction l1 with
  | nil => simpa using listInsert_zero l2 node
  | cons x rest ih => simp [listInsert, ih]

theorem listInsert_length (l : List ListNode) (node : ListNode) :
    listInsert l l.length node = l ++ [node] := by
  simpa using listInsert_append l [] node

theorem listInsert_after (l1 l2 : List ListNode) (e node : ListNode) :
    listInsert (l1 ++ e :: l2) (l1.length + 1) node = l1 ++ e :: node :: l2 := by
  have h := listInsert_append (l1 ++ [e]) l2 node
  simpa using h

theorem allocate_fresh (l : List ListNode) : ∀ n ∈ l, n.addr < allocate l := by
  induction l with
  | nil => simp
  | cons x rest ih =>
    intro n hn
    simp only [allocate, List.map, List.foldr] at ih ⊢
    rcases List.mem_cons.mp hn with h | h
    · subst h
      omega
    · have := ih n h
      omega

theorem allocate_not_mem (l : List ListNode) : allocate l ∉ l.map (fun n => n.addr) := by
  intro h
  obtain ⟨n, hn, he⟩ := List.mem_map.mp h
  have := allocate_fresh l n hn
  omega

theorem find_if_split (pred : ProjectionDescription → Bool) (l : List ListNode) :
    (∃ l1 e l2, l = l1 ++ e :: l2 ∧ pred e.value = true ∧ (∀ x ∈ l1, pred x.value = false) ∧
        find_if pred l = l1.length) ∨
      ((∀ x ∈ l, pred x.value = false) ∧ find_if pred l = l.length) := by
  induction l with
  | nil => right; simp [find_if]
  | cons x rest ih =>
    by_cases hx : pred x.value = true
    · left
      exact ⟨[], x, rest, rfl, hx, by simp, by simp [find_if, hx]⟩
    · have hx' : pred x.value = false := by simpa using hx
      rcases ih with ⟨l1, e, l2, hl, he, hl1, hf⟩ | ⟨hall, hf⟩
      · left
        refine ⟨x :: l1, e, l2, by simp [hl], he, ?_, by simp [find_if, hx', hf]⟩
        intro y hy
        rcases List.mem_cons.mp hy with h | h
        · subst h; exact hx'
        · exact hl1 y h
      · right
        refine ⟨?_, by simp [find_if, hx', hf]⟩
        intro y hy
        rcases List.mem_cons.mp hy with h | h
        · subst h; exact hx'
        · exact hall y h

theorem listErase_split (l1 l2 : List ListNode) (e : ListNode)
    (h : ∀ x ∈ l1, x.addr ≠ e.addr) :
    listErase (l1 ++ e :: l2) e.addr = l1 ++ l2 := by
  induction l1 with
  | nil => simp [listErase]
  | cons x rest ih =>
    have hx : x.addr ≠ e.addr := h x (by simp)
    have ih2 := ih (fun y hy => h y (List.mem_cons_of_mem _ hy))
    simp [listErase, hx, ih2]

theorem deref_of_mem (l : List ListNode) (node : ListNode)
    (hnd : (l.map (fun n => n.addr)).Nodup) (hm : node ∈ l) :
    deref l node.addr = some node.value := by
  induction l with
  | nil => simp at hm
  | cons x rest ih =>
    simp only [List.map, List.nodup_cons] at hnd
    rcases List.mem_cons.mp hm with h | h
    · subst h
      simp [deref]
    · have hne : x.addr ≠ node.addr := by
        intro he
        exact hnd.1 (he ▸ List.mem_map.mpr ⟨node, h, rfl⟩)
      simp only [deref, hne, if_false]
      exact ih hnd.2 h

end DB

/-! ## Consistency of the collection is kept by `add` and `remove` -/

namespace DB.ProjectionsDescription

theorem consistent_empty : Consistent {} := by
  refine ⟨by simp, by simp [names], ?_⟩
  intro n it
  simp [Map.find]

theorem Consistent.has_iff {C : ProjectionsDescription} (hC : Consistent C) (n : String) :
    C.has n = true ↔ n ∈ C.names := by
  unfold has Map.contains names
  rw [Option.isSome_iff_exists, List.mem_map]
  constructor
  · rintro ⟨it, hit⟩
    obtain ⟨node, hm, _, hn⟩ := (hC.index n it).mp hit
    exact ⟨node, hm, hn⟩
  · rintro ⟨node, hm, hn⟩
    exact ⟨node.addr, (hC.index n node.addr).mpr ⟨node, hm, rfl, hn⟩⟩

theorem Consistent.find_none {C : ProjectionsDescription} (hC : Consistent C) (n : String)
    (h : C.has n = false) : ∀ node ∈ C.projections, node.value.name ≠ n := by
  intro node hm hn
  have : C.has n = true := (hC.has_iff n).mpr (List.mem_map.mpr ⟨node, hm, hn⟩)
  rw [h] at this
  exact Bool.noConfusion this

theorem consistent_add {C : ProjectionsDescription} (hC : Consistent C)
    (p : ProjectionDescription) (a : String) (f i : Bool) :
    Consistent (C.add p a f i).2 := by
  unfold add
  by_cases hh : C.has p.name = true
  · rw [if_pos hh]
    cases i <;> exact hC
  · rw [if_neg hh]
    have hf : C.has p.name = false := by simpa using hh
    have hfresh := hC.find_none p.name hf
    generalize hpos : (if f = true then 0
      else if a ≠ "" then
        let it := find_if (fun projection_ => projection_.name == a) C.projections
        if it ≠ C.projections.length then it + 1 else it
      else C.projections.length) = pos
    have hperm := listInsert_perm C.projections pos ⟨allocate C.projections, p⟩
    refine ⟨?_, ?_, ?_⟩
    · have h1 := (hperm.map (fun n => n.addr)).nodup_iff
      rw [h1]
      simp only [List.map, List.nodup_cons]
      exact ⟨allocate_not_mem C.projections, hC.addrs_nodup⟩
    · have h1 := (hperm.map (fun n => n.value.name)).nodup_iff
      unfold names
      rw [h1]
      simp only [List.map, List.nodup_cons]
      refine ⟨?_, hC.names_nodup⟩
      intro hm
      obtain ⟨node, hnode, hname⟩ := List.mem_map.mp hm
      exact hfresh node hnode hname
    · intro n it
      simp only [Map.find_assign]
      by_cases hn : n = p.name
      · subst hn
        simp only [if_true, Option.some.injEq]
        constructor
        · intro h
          exact ⟨⟨allocate C.projections, p⟩, (mem_listInsert _ _ _ _).mpr (Or.inl rfl), h, rfl⟩
        · rintro ⟨node, hm, ha, hname⟩
          rcases (mem_listInsert _ _ _ _).mp hm with h | h
          · subst h; exact ha
          · exact absurd hname (hfresh node h)
      · simp only [hn, if_false]
        rw [hC.index n it]
        constructor
        · rintro ⟨node, hm, ha, hname⟩
          exact ⟨node, (mem_listInsert _ _ _ _).mpr (Or.inr hm), ha, hname⟩
        · rintro ⟨node, hm, ha, hname⟩
          rcases (mem_listInsert _ _ _ _).mp hm with h | h
          · subst h
            exact absurd hname.symm hn
          · exact ⟨node, h, ha, hname⟩

theorem Consistent.split_at {C : ProjectionsDescription} (hC : Consistent C) (n : String)
    (it : Nat) (h : Map.find C.map n = some it) :
    ∃ l1 node l2, C.projections = l1 ++ node :: l2 ∧ node.addr = it ∧ node.value.name = n ∧
      (∀ x ∈ l1, x.addr ≠ it) ∧ (∀ x ∈ l1, x.value.name ≠ n) ∧ (∀ x ∈ l2, x.value.name ≠ n) := by
  obtain ⟨node, hm, ha, hname⟩ := (hC.index n it).mp h
  obtain ⟨l1, l2, hl⟩ := List.append_of_mem hm
  have hnd := hC.addrs_nodup
  have hnn := hC.names_nodup
  unfold names at hnn
  rw [hl] at hnd hnn
  simp only [List.map_append, List.map_cons] at hnd hnn
  have hnd1 := (List.nodup_append.mp hnd).2.2
  have hnn1 := (List.nodup_append.mp hnn).2.2
  have hnn2 := (List.nodup_cons.mp (List.nodup_append.mp hnn).2.1).1
  refine ⟨l1, node, l2, hl, ha, hname, ?_, ?_, ?_⟩
  · intro x hx he
    exact hnd1 (List.mem_map.mpr ⟨x, hx, rfl⟩) (List.mem_cons.mpr (Or.inl (he.trans ha.symm)))
  · intro x hx he
    exact hnn1 (List.mem_map.mpr ⟨x, hx, rfl⟩) (List.mem_cons.mpr (Or.inl (he.trans hname.symm)))
  · intro x hx he
    exact hnn2 (List.mem_map.mpr ⟨x, hx, he.trans hname.symm⟩)

theorem consistent_remove {C : ProjectionsDescription} (hC : Consistent C)
    (n : String) (i : Bool) : Consistent (C.remove n i).2 := by
  unfold remove
  cases hfind : Map.find C.map n with
  | none => cases i <;> exact hC
  | some it =>
    obtain ⟨l1, node, l2, hl, ha, hname, hl1, hn1, hn2⟩ := hC.split_at n it hfind
    have herase : listErase C.projections it = l1 ++ l2 := by
      rw [hl, ← ha]
      exact listErase_split l1 l2 node (fun x hx => ha ▸ hl1 x hx)
    have hsub : (l1 ++ l2).Sublist C.projections := by
      rw [hl]
      exact List.Sublist.append (List.Sublist.refl l1) (List.sublist_cons_self node l2)
    simp only
    rw [herase]
    refine ⟨?_, ?_, ?_⟩
    · exact (hsub.map (fun n => n.addr)).nodup hC.addrs_nodup
    · have hnn := hC.names_nodup
      unfold names at hnn ⊢
      exact (hsub.map (fun n => n.value.name)).nodup hnn
    · intro m it2
      simp only [Map.find_erase]
      by_cases hm : m = n
      · subst hm
        simp only [if_true]
        constructor
        · intro h; exact Option.noConfusion h
        · rintro ⟨x, hx, _, hxn⟩
          rcases List.mem_append.mp hx with h | h
          · exact absurd hxn (hn1 x h)
          · exact absurd hxn (hn2 x h)
      · simp only [hm, if_false]
        rw [hC.index m it2, hl]
        constructor
        · rintro ⟨x, hx, hxa, hxn⟩
          refine ⟨x, ?_, hxa, hxn⟩
          rcases List.mem_append.mp hx with h | h
          · exact List.mem_append.mpr (Or.inl h)
          · rcases List.mem_cons.mp h with h2 | h2
            · subst h2
              exact absurd (hxn.symm.trans hname) hm
            · exact List.mem_append.mpr (Or.inr h2)
        · rintro ⟨x, hx, hxa, hxn⟩
          refine ⟨x, ?_, hxa, hxn⟩
          rcases List.mem_append.mp hx with h | h
          · exact List.mem_append.mpr (Or.inl h)
          · exact List.mem_append.mpr (Or.inr (List.mem_cons_of_mem _ h))

theorem consistent_of_reachable {C : ProjectionsDescription} (h : Reachable C) :
    Consistent C := by
  induction h with
  | empty => exact consistent_empty
  | add C p a f i _ ih => exact consistent_add ih p a f i
  | remove C n i _ ih => exact consistent_remove ih n i

end DB.ProjectionsDescription

/-! ## The collection: `add` -/

namespace DB.ProjectionsDescription

theorem add_of_not_has (C : ProjectionsDescription) (p : ProjectionDescription) (a : String)
    (f i : Bool) (hp : C.has p.name = false) :
    C.add p a f i =
      (.ok (), { projections := listInsert C.projections
                   (if f = true then 0
                    else if a ≠ "" then
                      if find_if (fun projection_ => projection_.name == a) C.projections
                          ≠ C.projections.length
                      then find_if (fun projection_ => projection_.name == a) C.projections + 1
                      else find_if (fun projection_ => projection_.name == a) C.projections
                    else C.projections.length)
                   { addr := allocate C.projections, value := p }
                 map := Map.assign C.map p.name (allocate C.projections) }) := by
  simp [add, hp]

end DB.ProjectionsDescription

namespace DB.ProjectionsDescription

theorem add_after_of_ne (C : ProjectionsDescription) (p : ProjectionDescription) (a : String)
    (i : Bool) (hp : C.has p.name = false) (ha : a ≠ "") :
    (C.add p a false i).1 = .ok () ∧
    ((∃ e ∈ C.values, e.name = a) →
      ∃ l1 e l2, C.values = l1 ++ e :: l2 ∧ e.name = a ∧ (∀ x ∈ l1, x.name ≠ a) ∧
        (C.add p a false i).2.values = l1 ++ e :: p :: l2) ∧
    ((∀ e ∈ C.values, e.name ≠ a) → (C.add p a false i).2.values = C.values ++ [p]) := by
  rw [add_of_not_has C p a false i hp]
  simp only [Bool.false_eq_true, if_false, ne_eq, ha, not_false_eq_true, if_true, true_and]
  rcases find_if_split (fun projection_ => projection_.name == a) C.projections with
    ⟨l1, e, l2, hl, he, hl1, hf⟩ | ⟨hall, hf⟩
  · have hlt : ¬ l1.length = C.projections.length := by
      rw [hl]; simp
    constructor
    · intro _
      refine ⟨l1.map (fun n => n.value), e.value, l2.map (fun n => n.value), ?_, ?_, ?_, ?_⟩
      · simp [values, hl]
      · simpa using he
      · intro x hx
        obtain ⟨y, hy, hyx⟩ := List.mem_map.mp hx
        have := hl1 y hy
        rw [← hyx]
        simpa using this
      · rw [hf, if_pos hlt]
        simp only [values]
        rw [hl, listInsert_after]
        simp
    · intro hnone
      exfalso
      have hmem : e.value ∈ C.values := by
        simp only [values, hl]
        simp
      exact hnone e.value hmem (by simpa using he)
  · constructor
    · rintro ⟨e, hmem, hname⟩
      exfalso
      obtain ⟨y, hy, hyx⟩ := List.mem_map.mp hmem
      have := hall y hy
      rw [hyx] at this
      simp [hname] at this
    · intro _
      rw [hf]
      simp only [not_true_eq_false, if_false, values]
      rw [listInsert_length]
      simp


end DB.ProjectionsDescription

namespace DB.ProjectionsDescription

/-- C1. For a collection whose elements have non-empty names (the invariant of a definition:
`getProjectionFromAST` rejects an empty name and the min-max-count projection carries the
reserved name), a definition `p` whose name the collection does not have, every name `a` and
`first = false`: `add` returns normally; if an element of the list is named `a`, the new list
is the old one with `p` inserted immediately after that element, the other elements keeping
their order; if `a` is non-empty and no element is named `a`, the new list is the old one with
`p` appended at the end. -/
theorem add_after_name (C : ProjectionsDescription) (p : ProjectionDescription) (a : String)
    (i : Bool) (hp : C.has p.name = false) (hnames : ∀ e ∈ C.values, e.name ≠ "") :
    (C.add p a false i).1 = .ok () ∧
    ((∃ e ∈ C.values, e.name = a) →
      ∃ l1 e l2, C.values = l1 ++ e :: l2 ∧ e.name = a ∧ (∀ x ∈ l1, x.name ≠ a) ∧
        (C.add p a false i).2.values = l1 ++ e :: p :: l2) ∧
    ((a ≠ "" ∧ ∀ e ∈ C.values, e.name ≠ a) →
      (C.add p a false i).2.values = C.values ++ [p]) := by
  by_cases ha : a = ""
  · subst ha
    refine ⟨?_, ?_, ?_⟩
    · rw [add_of_not_has C p "" false i hp]
    · rintro ⟨e, he, hname⟩
      exact absurd hname (hnames e he)
    · rintro ⟨hne, _⟩
      exact absurd rfl hne
  · obtain ⟨h1, h2, h3⟩ := add_after_of_ne C p a i hp ha
    exact ⟨h1, h2, fun h => h3 h.2⟩

/-- Witness of C1: adding "c" after "a" to the collection of "a" and "b". -/
theorem add_after_name_witness :
    Examples.collectionAB.has (Examples.named "c").name = false ∧
    (∀ e ∈ Examples.collectionAB.values, e.name ≠ "") ∧
    (∃ l1 e l2, Examples.collectionAB.values = l1 ++ e :: l2 ∧ e.name = "a" ∧
      (∀ x ∈ l1, x.name ≠ "a") ∧
      (Examples.collectionAB.add (Examples.named "c") "a" false false).2.values
        = l1 ++ e :: Examples.named "c" :: l2) :=
  ⟨by decide, by decide,
    (add_after_name Examples.collectionAB (Examples.named "c") "a" false (by decide)
      (by decide)).2.1 ⟨Examples.named "a", by simp [Examples.collectionAB, values, add, has, Map.contains, Map.find, listInsert, Examples.named], rfl⟩⟩

end DB.ProjectionsDescription

namespace DB.ProjectionsDescription

/-- C2. For a definition `p` whose name the collection does not have: with `first = true`,
`add` returns normally and the new list is `p` followed by the old list, whatever
`after_projection` is; with `after_projection = ""` and `first = false`, `add` returns normally
and the new list is the old list followed by `p`. -/
theorem add_first_or_append (C : ProjectionsDescription) (p : ProjectionDescription)
    (a : String) (i : Bool) (hp : C.has p.name = false) :
    ((C.add p a true i).1 = .ok () ∧ (C.add p a true i).2.values = p :: C.values) ∧
    ((C.add p "" false i).1 = .ok () ∧ (C.add p "" false i).2.values = C.values ++ [p]) := by
  rw [add_of_not_has C p a true i hp, add_of_not_has C p "" false i hp]
  simp only [if_true, Bool.false_eq_true, if_false, ne_eq, not_true_eq_false, true_and, values]
  rw [listInsert_zero, listInsert_length]
  simp

/-- Witness of C2: adding "c" to the collection of "a" and "b", first with `first = true` and
an `after_projection` that names an element, then with the default arguments. -/
theorem add_first_or_append_witness :
    Examples.collectionAB.has (Examples.named "c").name = false ∧
    (Examples.collectionAB.add (Examples.named "c") "a" true false).2.values
      = Examples.named "c" :: Examples.collectionAB.values ∧
    (Examples.collectionAB.add (Examples.named "c") "" false false).2.values
      = Examples.collectionAB.values ++ [Examples.named "c"] :=
  ⟨by decide,
    (add_first_or_append Examples.collectionAB (Examples.named "c") "a" false
      (by decide)).1.2,
    (add_first_or_append Examples.collectionAB (Examples.named "c") "a" false
      (by decide)).2.2⟩

/-- C3. When the collection has the name of `p`, `add` leaves the collection (list and name
index) as it was, for every `after_projection` and `first`; it returns normally exactly when
`if_not_exists` is true and throws `ILLEGAL_PROJECTION` exactly when it is false. -/
theorem add_existing_name (C : ProjectionsDescription) (p : ProjectionDescription)
    (a : String) (f i : Bool) (hp : C.has p.name = true) :
    (C.add p a f i).2 = C ∧
    ((C.add p a f i).1 = .ok () ↔ i = true) ∧
    ((C.add p a f i).1 = .error ErrorCode.ILLEGAL_PROJECTION ↔ i = false) := by
  unfold add
  rw [if_pos hp]
  cases i <;> simp

/-- Witness of C3: adding a definition named "a" to the collection of "a" and "b". -/
theorem add_existing_name_witness :
    Examples.collectionAB.has (Examples.named "a").name = true ∧
    (Examples.collectionAB.add (Examples.named "a") "b" true false).2 = Examples.collectionAB ∧
    (Examples.collectionAB.add (Examples.named "a") "b" true false).1
      = .error ErrorCode.ILLEGAL_PROJECTION :=
  ⟨by decide,
    (add_existing_name Examples.collectionAB (Examples.named "a") "b" true false
      (by decide)).1,
    (add_existing_name Examples.collectionAB (Examples.named "a") "b" true false
      (by decide)).2.2.mpr rfl⟩

/-- C4. In a consistent collection: when no element is named `n`, `remove` throws
`NO_SUCH_PROJECTION_IN_TABLE` if `if_exists` is false and returns normally if it is true, and
in both cases leaves the collection as it was; when an element is named `n`, `remove` returns
normally, the new list is the old one without that element (the others in their order, none of
them named `n`), and `has n` is false afterwards. -/
theorem remove_contract (C : ProjectionsDescription) (n : String) (i : Bool)
    (hC : Consistent C) :
    (n ∉ C.names →
      (C.remove n i).2 = C ∧
      (i = false → (C.remove n i).1 = .error ErrorCode.NO_SUCH_PROJECTION_IN_TABLE) ∧
      (i = true → (C.remove n i).1 = .ok ())) ∧
    (n ∈ C.names →
      (C.remove n i).1 = .ok () ∧
      (∃ l1 e l2, C.values = l1 ++ e :: l2 ∧ e.name = n ∧
        (∀ x ∈ l1 ++ l2, x.name ≠ n) ∧ (C.remove n i).2.values = l1 ++ l2) ∧
      (C.remove n i).2.has n = false) := by
  constructor
  · intro hn
    have hhas : ¬ C.has n = true := fun h => hn ((hC.has_iff n).mp h)
    have hfind : Map.find C.map n = none := by
      unfold has Map.contains at hhas
      cases h : Map.find C.map n with
      | none => rfl
      | some v => rw [h] at hhas; exact absurd rfl hhas
    unfold remove
    rw [hfind]
    cases i <;> simp
  · intro hn
    have hhas := (hC.has_iff n).mpr hn
    unfold has Map.contains at hhas
    obtain ⟨it, hfind⟩ := Option.isSome_iff_exists.mp hhas
    obtain ⟨l1, node, l2, hl, ha, hname, hl1, hn1, hn2⟩ := hC.split_at n it hfind
    have herase : listErase C.projections it = l1 ++ l2 := by
      rw [hl, ← ha]
      exact listErase_split l1 l2 node (fun x hx => ha ▸ hl1 x hx)
    unfold remove
    rw [hfind]
    refine ⟨rfl, ⟨l1.map (fun x => x.value), node.value, l2.map (fun x => x.value),
      ?_, hname, ?_, ?_⟩, ?_⟩
    · simp [values, hl]
    · intro x hx
      rcases List.mem_append.mp hx with h | h
      · obtain ⟨y, hy, hyx⟩ := List.mem_map.mp h
        exact hyx ▸ hn1 y hy
      · obtain ⟨y, hy, hyx⟩ := List.mem_map.mp h
        exact hyx ▸ hn2 y hy
    · simp [values, herase]
    · simp [has, Map.contains, Map.find_erase]

/-- Witness of C4: removing "a" from the collection of "a" and "b". -/
theorem remove_contract_witness :
    Consistent Examples.collectionAB ∧
    (Examples.collectionAB.remove "a" false).1 = .ok () ∧
    (Examples.collectionAB.remove "a" false).2.has "a" = false :=
  ⟨consistent_of_reachable (Reachable.add _ _ _ _ _ (Reachable.add _ _ _ _ _ Reachable.empty)),
    ((remove_contract Examples.collectionAB "a" false
      (consistent_of_reachable
        (Reachable.add _ _ _ _ _ (Reachable.add _ _ _ _ _ Reachable.empty)))).2
      (by decide)).1,
    ((remove_contract Examples.collectionAB "a" false
      (consistent_of_reachable
        (Reachable.add _ _ _ _ _ (Reachable.add _ _ _ _ _ Reachable.empty)))).2
      (by decide)).2.2⟩

/-- C5. Every collection obtained from the empty one by calls of `add` and `remove`, returning
or throwing, is consistent: the names in the list are pairwise distinct, the index has a name
exactly when an element of the list carries it, and the iterator the index stores for a name
designates a node of the list whose element carries that name. -/
theorem reachable_consistent (C : ProjectionsDescription) (h : Reachable C) :
    C.names.Nodup ∧
    (∀ n, Map.contains C.map n = true ↔ n ∈ C.names) ∧
    (∀ n it, Map.find C.map n = some it →
      ∃ d, deref C.projections it = some d ∧ d ∈ C.values ∧ d.name = n) := by
  have hC := consistent_of_reachable h
  refine ⟨hC.names_nodup, fun n => hC.has_iff n, ?_⟩
  intro n it hfind
  obtain ⟨node, hm, ha, hname⟩ := (hC.index n it).mp hfind
  refine ⟨node.value, ?_, List.mem_map.mpr ⟨node, hm, rfl⟩, hname⟩
  rw [← ha]
  exact deref_of_mem C.projections node hC.addrs_nodup hm

/-- Witness of C5: the collection of "a" and "b", two calls of `add` away from the empty one. -/
theorem reachable_consistent_witness :
    Reachable Examples.collectionAB ∧ Examples.collectionAB.names.Nodup :=
  ⟨Reachable.add _ _ _ _ _ (Reachable.add _ _ _ _ _ Reachable.empty),
    (reachable_consistent Examples.collectionAB
      (Reachable.add _ _ _ _ _ (Reachable.add _ _ _ _ _ Reachable.empty))).1⟩

/-- C6. In every collection obtained from the empty one by calls of `add` and `remove`:
`has n` is true exactly when an element of the list is named `n`; when `has n` is true, `get n`
returns an element of the list whose name is `n`; when `has n` is false, `get n` throws
`NO_SUCH_PROJECTION_IN_TABLE`. -/
theorem has_get_contract (C : ProjectionsDescription) (n : String) (h : Reachable C) :
    (C.has n = true ↔ ∃ e ∈ C.values, e.name = n) ∧
    (C.has n = true → ∃ e, C.get n = .ok (some e) ∧ e ∈ C.values ∧ e.name = n) ∧
    (C.has n = false → C.get n = .error ErrorCode.NO_SUCH_PROJECTION_IN_TABLE) := by
  have hC := consistent_of_reachable h
  refine ⟨?_, ?_, ?_⟩
  · rw [hC.has_iff n]
    simp [names, values]
  · intro hhas
    unfold has Map.contains at hhas
    obtain ⟨it, hfind⟩ := Option.isSome_iff_exists.mp hhas
    obtain ⟨node, hm, ha, hname⟩ := (hC.index n it).mp hfind
    refine ⟨node.value, ?_, List.mem_map.mpr ⟨node, hm, rfl⟩, hname⟩
    unfold get
    rw [hfind, ← ha]
    simp only
    rw [deref_of_mem C.projections node hC.addrs_nodup hm]
  · intro hhas
    unfold has Map.contains at hhas
    unfold get
    cases hf : Map.find C.map n with
    | none => rfl
    | some v => rw [hf] at hhas; exact Bool.noConfusion hhas

/-- Witness of C6: looking up "b" in the collection of "a" and "b". -/
theorem has_get_contract_witness :
    Reachable Examples.collectionAB ∧
    (Examples.collectionAB.has "b" = true ↔ ∃ e ∈ Examples.collectionAB.values, e.name = "b") :=
  ⟨Reachable.add _ _ _ _ _ (Reachable.add _ _ _ _ _ Reachable.empty),
    (has_get_contract Examples.collectionAB "b"
      (Reachable.add _ _ _ _ _ (Reachable.add _ _ _ _ _ Reachable.empty))).1⟩

end DB.ProjectionsDescription

/-! ## The factories -/

namespace DB.ProjectionDescription

theorem finishProjection_ok (result p : ProjectionDescription) (sk pk : KeyDescription)
    (h : finishProjection result sk pk = .ok p) :
    p.name = result.name ∧ p.type = result.type ∧ p.key_size = result.key_size ∧
    p.definition_ast = result.definition_ast ∧ p.query_ast = result.query_ast := by
  unfold finishProjection at h
  simp only at h
  split at h
  · exact Except.noConfusion h
  · injection h with h
    subst h
    exact ⟨rfl, rfl, rfl, rfl, rfl⟩

theorem aggregateKeys_ok (ext : Externals) (g : Option AST) (b : Block) (ctx : Context)
    (r : Nat × KeyDescription × KeyDescription) (h : aggregateKeys ext g b ctx = .ok r) :
    r.1 = groupByCount g := by
  unfold aggregateKeys at h
  cases g with
  | none =>
    simp only at h
    injection h with h
    subst h
    rfl
  | some gl =>
    simp only at h
    split at h
    · exact Except.noConfusion h
    · split at h
      · exact Except.noConfusion h
      · injection h with h
        subst h
        simp only [groupByCount]
        split
        · rename_i h1
          simp [h1]
        · rfl

/-- What a successful call of `getProjectionFromAST` establishes. -/
theorem getProjectionFromAST_ok (ext : Externals) (definition_ast : AST)
    (columns : ColumnsDescription) (ctx : Context) (p : ProjectionDescription)
    (h : getProjectionFromAST ext definition_ast columns ctx = .ok p) :
    ∃ name w s g o select w1 s1 wh1 g1 o1,
      definition_ast = .projectionDeclaration name (some (.projectionSelectQuery w s g o)) ∧
      name ≠ "" ∧
      ext.cloneToASTSelect (.projectionSelectQuery w s g o) = .selectQuery w1 s1 wh1 g1 o1 ∧
      ext.interpret (.selectQuery w1 s1 wh1 g1 o1) ctx columns = .ok select ∧
      p.name = name ∧ p.definition_ast = some definition_ast ∧
      p.query_ast = some (.selectQuery w1 s1 wh1 g1 o1) ∧
      (select.hasAggregation = true →
        o = none ∧ p.type = ProjectionType.Aggregate ∧ p.key_size = groupByCount g1) ∧
      (select.hasAggregation = false → p.type = ProjectionType.Normal ∧ p.key_size = 0) := by
  unfold getProjectionFromAST at h
  split at h
  · split at h <;> exact Except.noConfusion h
  · rename_i name w s g o
    split at h
    · exact Except.noConfusion h
    · rename_i hname
      simp only at h
      split at h
      · exact Except.noConfusion h
      · rename_i select hsel
        split at h
        · rename_i w1 s1 wh1 g1 o1 hq
          refine ⟨name, w, s, g, o, select, w1, s1, wh1, g1, o1, rfl, hname, hq, hq ▸ hsel, ?_⟩
          split at h
          · rename_i hagg
            split at h
            · exact Except.noConfusion h
            · rename_i ho
              split at h
              · exact Except.noConfusion h
              · rename_i ks sk pk hkeys
                have hk := aggregateKeys_ok ext g1 _ ctx _ hkeys
                obtain ⟨h1, h2, h3, h4, h5⟩ := finishProjection_ok _ _ _ _ h
                refine ⟨h1, h4, h5.trans (by rw [hq]), ?_, ?_⟩
                · intro _
                  refine ⟨?_, h2, h3.trans hk⟩
                  cases o with
                  | none => rfl
                  | some x => simp at ho
                · intro hf
                  rw [hagg] at hf
                  exact Bool.noConfusion hf
          · rename_i hagg
            split at h
            · exact Except.noConfusion h
            · split at h
              · exact Except.noConfusion h
              · obtain ⟨h1, h2, h3, h4, h5⟩ := finishProjection_ok _ _ _ _ h
                refine ⟨h1, h4, h5.trans (by rw [hq]), ?_, ?_⟩
                · intro ht
                  exact absurd ht hagg
                · intro _
                  exact ⟨h2, h3⟩
        · exact Except.noConfusion h
  · split at h <;> exact Except.noConfusion h
  · exact Except.noConfusion h

end DB.ProjectionDescription

namespace DB.ProjectionDescription

/-- C9 as stated fails. The declaration `p (SELECT count())` has no GROUP BY, neither in the
projection query nor in the SELECT query derived from it; the analysis reports aggregation and
the definition built from it has type `Aggregate`. -/
theorem aggregate_without_group_by_counterexample :
    ∃ p, getProjectionFromAST Examples.ext Examples.declarationCount Examples.noColumns
        Examples.noSettings = .ok p ∧
      p.type = ProjectionType.Aggregate ∧
      p.query_ast.map AST.groupBy = some none ∧
      Examples.declarationCount = .projectionDeclaration "p"
        (some (.projectionSelectQuery none
          (some (.expressionList [makeASTFunction "count" []])) none none)) :=
  ⟨_, rfl, rfl, rfl, rfl⟩

/-- C9 (as amended). A definition built by `getProjectionFromAST` has type `Aggregate` exactly
when the analysis of its SELECT query reports aggregation (`hasAggregation`), and type `Normal`
exactly when it does not. -/
theorem type_iff_hasAggregation (ext : Externals) (definition_ast : AST)
    (columns : ColumnsDescription) (ctx : Context) (p : ProjectionDescription)
    (h : getProjectionFromAST ext definition_ast columns ctx = .ok p) :
    ∃ q select, p.query_ast = some q ∧ ext.interpret q ctx columns = .ok select ∧
      (p.type = ProjectionType.Aggregate ↔ select.hasAggregation = true) ∧
      (p.type = ProjectionType.Normal ↔ select.hasAggregation = false) := by
  obtain ⟨name, w, s, g, o, select, w1, s1, wh1, g1, o1, _, _, _, hsel, _, _, hq, hagg, hnorm⟩ :=
    getProjectionFromAST_ok ext definition_ast columns ctx p h
  refine ⟨_, select, hq, hsel, ?_, ?_⟩
  · cases hb : select.hasAggregation with
    | true => simp [(hagg hb).2.1]
    | false => simp [(hnorm hb).1]
  · cases hb : select.hasAggregation with
    | true => simp [(hagg hb).2.1]
    | false => simp [(hnorm hb).1]

/-- Witness of C9 (as amended): the declaration `q (SELECT x ORDER BY x)` gives a `Normal`
definition, its analysis reporting no aggregation. -/
theorem type_iff_hasAggregation_witness :
    ∃ p, getProjectionFromAST Examples.ext Examples.declarationOrdered Examples.noColumns
        Examples.noSettings = .ok p ∧
      ∃ q select, p.query_ast = some q ∧
        Examples.ext.interpret q Examples.noSettings Examples.noColumns = .ok select ∧
        (p.type = ProjectionType.Aggregate ↔ select.hasAggregation = true) ∧
        (p.type = ProjectionType.Normal ↔ select.hasAggregation = false) :=
  ⟨_, rfl, type_iff_hasAggregation Examples.ext Examples.declarationOrdered Examples.noColumns
    Examples.noSettings _ rfl⟩

/-- C10 as stated fails for the min-max-count factory. With one partition expression the
projection query of the definition and the SELECT query derived from it have a GROUP BY of one
expression, the type is `Aggregate`, and `key_size` is 0. -/
theorem minmax_key_size_counterexample :
    ∃ p, getMinMaxCountProjection Examples.ext Examples.noColumns
        (some (.expressionList [AST.identifier "k"])) ["d"] [] Examples.noSettings = .ok p ∧
      p.type = ProjectionType.Aggregate ∧
      p.definition_ast.map
          (fun q => match q with
            | .projectionSelectQuery _ _ g _ => groupByCount g
            | _ => 0) = some 1 ∧
      p.query_ast.map (fun q => groupByCount q.groupBy) = some 1 ∧
      p.key_size = 0 :=
  ⟨_, rfl, rfl, rfl, rfl, rfl⟩

/-- C10 (as amended). For a definition built by `getProjectionFromAST`: if its type is
`Aggregate`, `key_size` is the number of GROUP BY expressions of its SELECT query (0 when the
query has no GROUP BY); if its type is `Normal`, `key_size` is 0. A definition built by
`getMinMaxCountProjection` has type `Aggregate` and `key_size` 0, whatever its GROUP BY. -/
theorem key_size_contract (ext : Externals) (columns : ColumnsDescription) (ctx : Context)
    (p : ProjectionDescription) :
    (∀ definition_ast, getProjectionFromAST ext definition_ast columns ctx = .ok p →
      ∃ q, p.query_ast = some q ∧
        (p.type = ProjectionType.Aggregate → p.key_size = groupByCount q.groupBy) ∧
        (p.type = ProjectionType.Normal → p.key_size = 0)) ∧
    (∀ partition_columns minmax_columns primary_key_asts,
      getMinMaxCountProjection ext columns partition_columns minmax_columns primary_key_asts ctx
        = .ok p →
      p.type = ProjectionType.Aggregate ∧ p.key_size = 0) := by
  constructor
  · intro definition_ast h
    obtain ⟨name, w, s, g, o, select, w1, s1, wh1, g1, o1, _, _, _, _, _, _, hq, hagg, hnorm⟩ :=
      getProjectionFromAST_ok ext definition_ast columns ctx p h
    refine ⟨_, hq, ?_, ?_⟩
    · intro ht
      cases hb : select.hasAggregation with
      | true => exact (hagg hb).2.2
      | false =>
        rw [(hnorm hb).1] at ht
        exact ProjectionType.noConfusion ht
    · intro ht
      cases hb : select.hasAggregation with
      | true =>
        rw [(hagg hb).2.1] at ht
        exact ProjectionType.noConfusion ht
      | false => exact (hnorm hb).2
  · intro pc mm pk h
    unfold getMinMaxCountProjection at h
    simp only at h
    split at h
    · exact Except.noConfusion h
    · injection h with h
      subst h
      exact ⟨rfl, rfl⟩

/-- Witness of C10 (as amended): the declaration `g (SELECT k, sum(x) GROUP BY k)` gives an
`Aggregate` definition of `key_size` 1. -/
theorem key_size_contract_witness :
    ∃ p, getProjectionFromAST Examples.ext Examples.declarationGrouped Examples.noColumns
        Examples.noSettings = .ok p ∧ p.type = ProjectionType.Aggregate ∧ p.key_size = 1 ∧
      ∃ q, p.query_ast = some q ∧
        (p.type = ProjectionType.Aggregate → p.key_size = groupByCount q.groupBy) ∧
        (p.type = ProjectionType.Normal → p.key_size = 0) :=
  ⟨_, rfl, rfl, rfl,
    (key_size_contract Examples.ext Examples.noColumns Examples.noSettings _).1
      Examples.declarationGrouped rfl⟩

end DB.ProjectionDescription

/-! ## The collection: `toString` and `parse` -/

namespace DB.ProjectionsDescription

theorem definitions_built (ext : Externals) (columns : ColumnsDescription) (ctx : Context)
    (ps : List ProjectionDescription)
    (h : ∀ p ∈ ps, ∃ d, ProjectionDescription.getProjectionFromAST ext d columns ctx = .ok p) :
    ∃ ds, definitions ps = some ds ∧
      List.Forall₂
        (fun d p => ProjectionDescription.getProjectionFromAST ext d columns ctx = .ok p ∧
          p.definition_ast = some d) ds ps := by
  induction ps with
  | nil => exact ⟨[], rfl, List.Forall₂.nil⟩
  | cons p rest ih =>
    obtain ⟨ds, hds, hall⟩ := ih (fun q hq => h q (List.mem_cons_of_mem _ hq))
    obtain ⟨d, hd⟩ := h p (List.mem_cons_self _ _)
    obtain ⟨_, _, _, _, _, _, _, _, _, _, _, _, _, _, _, _, hdef, _⟩ :=
      ProjectionDescription.getProjectionFromAST_ok ext d columns ctx p hd
    refine ⟨d :: ds, ?_, List.Forall₂.cons ⟨hd, hdef⟩ hall⟩
    simp [definitions, hdef, hds]

theorem parseLoop_appends (ext : Externals) (columns : ColumnsDescription) (ctx : Context)
    (ds : List AST) (ps : List ProjectionDescription)
    (hall : List.Forall₂
      (fun d p => ProjectionDescription.getProjectionFromAST ext d columns ctx = .ok p ∧
        p.definition_ast = some d) ds ps) :
    ∀ result : ProjectionsDescription, Consistent result →
      (result.names ++ ps.map (fun p => p.name)).Nodup →
      ∃ C1, parseLoop ext columns ctx ds result = .ok C1 ∧ C1.values = result.values ++ ps := by
  induction hall with
  | nil =>
    intro result _ _
    exact ⟨result, rfl, by simp⟩
  | @cons d p ds ps hd _ ih =>
    intro result hres hnd
    have hnot : p.name ∉ result.names := by
      intro hm
      have := (List.nodup_append.mp hnd).2.2
      exact this hm (by simp)
    have hhas : result.has p.name = false := by
      cases hb : result.has p.name with
      | false => rfl
      | true => exact absurd ((hres.has_iff p.name).mp hb) hnot
    have hadd := add_of_not_has result p "" false false hhas
    simp only [Bool.false_eq_true, if_false, ne_eq, not_true_eq_false] at hadd
    rw [listInsert_length] at hadd
    have hcons := consistent_add hres p "" false false
    rw [hadd] at hcons
    simp only at hcons
    have hnd1 : (ProjectionsDescription.names
        { projections := result.projections ++ [{ addr := allocate result.projections, value := p }]
          map := Map.assign result.map p.name (allocate result.projections) }
          ++ ps.map (fun p => p.name)).Nodup := by
      simp only [names, List.map_append, List.map_cons, List.map_nil, List.append_assoc,
        List.singleton_append] at hnd ⊢
      exact hnd
    obtain ⟨C1, hC1, hv⟩ := ih _ hcons hnd1
    refine ⟨C1, ?_, ?_⟩
    · simp only [parseLoop, hd.1, hadd]
      exact hC1
    · rw [hv]
      simp [values]

/-- C7. For a non-empty collection obtained by calls of `add` and `remove` whose elements were
built by `getProjectionFromAST` from declarations against `columns` and `query_context`, and
whose declaration list the parser reads back from its one-line text: `toString` gives a text,
`parse` of that text against the same `columns` and `query_context` returns a collection with
the same names in the same order, and its definitions equal those of the original
(`operator==`) position by position. -/
theorem parse_toString_roundtrip (ext : Externals) (columns : ColumnsDescription)
    (query_context : Context) (C : ProjectionsDescription)
    (hC : Reachable C) (hne : C.values ≠ [])
    (hbuilt : ∀ p ∈ C.values,
      ∃ d, ProjectionDescription.getProjectionFromAST ext d columns query_context = .ok p)
    (hrt : ∀ ds, definitions C.values = some ds → ReadsBack ext ds) :
    ∃ text C1, C.toString ext = some text ∧
      parse ext text columns query_context = .ok C1 ∧
      C1.names = C.names ∧
      List.Forall₂ (fun a b => ProjectionDescription.eq ext a b = some true)
        C1.values C.values := by
  obtain ⟨ds, hds, hall⟩ := definitions_built ext columns query_context C.values hbuilt
  obtain ⟨htext, hparse⟩ := hrt ds hds
  have hnd : ((({} : ProjectionsDescription).names) ++ C.values.map (fun p => p.name)).Nodup := by
    have := (consistent_of_reachable hC).names_nodup
    simpa [names, values] using this
  obtain ⟨C1, hloop, hvals⟩ :=
    parseLoop_appends ext columns query_context ds C.values hall {} consistent_empty hnd
  have hvals1 : C1.values = C.values := by simpa [values] using hvals
  refine ⟨ext.formatWithSecretsOneLine (.expressionList ds), C1, ?_, ?_, ?_, ?_⟩
  · unfold toString
    have : C.projections.isEmpty = false := by
      cases hp : C.projections with
      | nil => exact absurd (by simp [values, hp]) hne
      | cons x rest => rfl
    simp [this, hds]
  · unfold parse
    rw [if_neg htext, hparse]
    exact hloop
  · have := congrArg (List.map (fun p : ProjectionDescription => p.name)) hvals1
    simpa [names, values] using this
  · rw [hvals1, List.forall₂_same]
    intro p hp
    obtain ⟨d, hd⟩ := hbuilt p hp
    obtain ⟨_, _, _, _, _, _, _, _, _, _, _, _, _, _, _, _, hdef, _⟩ :=
      ProjectionDescription.getProjectionFromAST_ok ext d columns query_context p hd
    simp [ProjectionDescription.eq, hdef]

/-- Witness of C7: the collection holding the definition built from
`g (SELECT k, sum(x) GROUP BY k)`, with a parser that reads its text back. -/
theorem parse_toString_roundtrip_witness :
    Reachable Examples.collectionGrouped ∧ Examples.collectionGrouped.values ≠ [] ∧
    ∃ text C1, Examples.collectionGrouped.toString Examples.extReadsBack = some text ∧
      parse Examples.extReadsBack text Examples.noColumns Examples.noSettings = .ok C1 ∧
      C1.names = Examples.collectionGrouped.names ∧
      List.Forall₂ (fun a b => ProjectionDescription.eq Examples.extReadsBack a b = some true)
        C1.values Examples.collectionGrouped.values :=
  ⟨Reachable.add _ _ _ _ _ Reachable.empty,
    fun h => List.noConfusion h,
    parse_toString_roundtrip Examples.extReadsBack Examples.noColumns Examples.noSettings
      Examples.collectionGrouped (Reachable.add _ _ _ _ _ Reachable.empty)
      (fun h => List.noConfusion h)
      (fun p hp => ⟨Examples.declarationGrouped, by
        have : p = Examples.definitionGrouped := by
          simpa [Examples.collectionGrouped, values, add, has, Map.contains, Map.find,
            listInsert] using hp
        rw [this]; rfl⟩)
      (fun ds hds => by
        have h1 : definitions Examples.collectionGrouped.values
            = some [Examples.declarationGrouped] := rfl
        rw [h1] at hds
        injection hds with hds
        subst hds
        exact ⟨by decide, rfl⟩)⟩

end DB.ProjectionsDescription

/-! ## The factory `getProjectionFromAST`: its checks -/

namespace DB.ProjectionDescription

theorem finishProjection_error (result : ProjectionDescription) (sk pk : KeyDescription)
    (e : ErrorCode) (h : finishProjection result sk pk = .error e) :
    e = ErrorCode.NOT_IMPLEMENTED := by
  unfold finishProjection at h
  simp only at h
  split at h
  · injection h with h
    exact h.symm
  · exact Except.noConfusion h

theorem aggregateKeys_error (ext : Externals) (g : Option AST) (b : Block) (ctx : Context)
    (e : ErrorCode) (h : aggregateKeys ext g b ctx = .error e) :
    ∃ a c, ext.getSortingKeyFromAST a c ctx = .error e ∨ ext.getKeyFromAST a c ctx = .error e := by
  unfold aggregateKeys at h
  cases g with
  | none => exact Except.noConfusion h
  | some gl =>
    simp only at h
    split at h
    · rename_i e1 hs
      injection h with h
      subst h
      exact ⟨_, _, Or.inl hs⟩
    · split at h
      · rename_i e1 hk
        injection h with h
        subst h
        exact ⟨_, _, Or.inr hk⟩
      · exact Except.noConfusion h

/-- C11. For a declaration with a non-empty name and a projection query whose SELECT-shaped
query is analysed: if the analysis reports aggregation and the query has an ORDER BY,
`getProjectionFromAST` throws `ILLEGAL_PROJECTION` (and so returns no definition); with
aggregation and no ORDER BY, or without aggregation, whether or not there is an ORDER BY, it
does not throw `ILLEGAL_PROJECTION`, the key builders of `KeyDescription` not throwing that
code. -/
theorem order_by_with_aggregation (ext : Externals) (name : String)
    (w s g o w1 s1 wh1 g1 o1 : Option AST) (columns : ColumnsDescription) (ctx : Context)
    (select : SelectAnalysis) (hname : name ≠ "")
    (hclone : ext.cloneToASTSelect (.projectionSelectQuery w s g o)
      = .selectQuery w1 s1 wh1 g1 o1)
    (hsel : ext.interpret (.selectQuery w1 s1 wh1 g1 o1) ctx columns = .ok select) :
    (select.hasAggregation = true → o.isSome = true →
      getProjectionFromAST ext
        (.projectionDeclaration name (some (.projectionSelectQuery w s g o))) columns ctx
        = .error ErrorCode.ILLEGAL_PROJECTION) ∧
    ((select.hasAggregation = true ∧ o = none) ∨ select.hasAggregation = false →
      (∀ a c, ext.getSortingKeyFromAST a c ctx ≠ .error ErrorCode.ILLEGAL_PROJECTION ∧
        ext.getKeyFromAST a c ctx ≠ .error ErrorCode.ILLEGAL_PROJECTION) →
      getProjectionFromAST ext
        (.projectionDeclaration name (some (.projectionSelectQuery w s g o))) columns ctx
        ≠ .error ErrorCode.ILLEGAL_PROJECTION) := by
  constructor
  · intro hagg ho
    simp [getProjectionFromAST, hname, hclone, hsel, hagg, ho]
  · intro hcase hkeys hres
    unfold getProjectionFromAST at hres
    simp only [hname, if_false, hclone, hsel] at hres
    rcases hcase with ⟨hagg, ho⟩ | hagg
    · subst ho
      simp only [hagg, if_true, Option.isSome_none, Bool.false_eq_true, if_false] at hres
      split at hres
      · rename_i e hk
        injection hres with hres
        subst hres
        obtain ⟨a, c, h1 | h1⟩ := aggregateKeys_error ext _ _ _ _ hk
        · exact (hkeys a c).1 h1
        · exact (hkeys a c).2 h1
      · have := finishProjection_error _ _ _ _ hres
        exact ErrorCode.noConfusion this
    · simp only [hagg, Bool.false_eq_true, if_false] at hres
      split at hres
      · rename_i e hk
        injection hres with hres
        subst hres
        exact (hkeys _ _).1 hk
      · split at hres
        · rename_i e hk
          injection hres with hres
          subst hres
          exact (hkeys _ _).2 hk
        · have := finishProjection_error _ _ _ _ hres
          exact ErrorCode.noConfusion this

/-- Witness of C11: the declaration `o (SELECT k, sum(x) GROUP BY k ORDER BY k)` is rejected
with `ILLEGAL_PROJECTION`; the declaration `q (SELECT x ORDER BY x)` is not. -/
theorem order_by_with_aggregation_witness :
    getProjectionFromAST Examples.ext Examples.declarationGroupedOrdered Examples.noColumns
      Examples.noSettings = .error ErrorCode.ILLEGAL_PROJECTION ∧
    getProjectionFromAST Examples.ext Examples.declarationOrdered Examples.noColumns
      Examples.noSettings ≠ .error ErrorCode.ILLEGAL_PROJECTION :=
  ⟨(order_by_with_aggregation Examples.ext "o" none
      (some (.expressionList [AST.identifier "k", makeASTFunction "sum" [AST.identifier "x"]]))
      (some (.expressionList [AST.identifier "k"])) (some (AST.identifier "k"))
      none _ none _ _ Examples.noColumns Examples.noSettings _ (by decide) rfl rfl).1 rfl rfl,
    (order_by_with_aggregation Examples.ext "q" none
      (some (.expressionList [AST.identifier "x"])) none (some (AST.identifier "x"))
      none _ none _ _ Examples.noColumns Examples.noSettings _ (by decide) rfl rfl).2
      (Or.inr rfl)
      (fun _ _ => ⟨fun h => Except.noConfusion h, fun h => Except.noConfusion h⟩)⟩

end DB.ProjectionDescription

namespace DB.ProjectionDescription

theorem insertUnique_foldl (cols : NamesAndTypesList) :
    ∀ b : Block, ∃ extras : Block,
      cols.foldl
          (fun b nt => Block.insertUnique b { column := none, type := nt.2, name := nt.1 }) b
        = b ++ extras ∧ ∀ c ∈ extras, c.column = none := by
  induction cols with
  | nil => intro b; exact ⟨[], by simp, by simp⟩
  | cons nt rest ih =>
    intro b
    simp only [List.foldl]
    by_cases hb : Block.has b nt.1 = true
    · obtain ⟨extras, h1, h2⟩ := ih b
      refine ⟨extras, ?_, h2⟩
      simp only [Block.insertUnique, hb, if_true]
      exact h1
    · obtain ⟨extras, h1, h2⟩ := ih (b ++ [{ column := none, type := nt.2, name := nt.1 }])
      refine ⟨{ column := none, type := nt.2, name := nt.1 } :: extras, ?_, ?_⟩
      · simp only [Block.insertUnique, hb, Block.insert]
        simpa using h1
      · intro c hc
        rcases List.mem_cons.mp hc with h | h
        · subst h; rfl
        · exact h2 c h

theorem extendedSampleBlock_any_const (b : Block) (sk : KeyDescription) :
    (extendedSampleBlock b sk).any (fun c => c.isConstColumn) = b.any (fun c => c.isConstColumn) := by
  obtain ⟨extras, h1, h2⟩ := insertUnique_foldl sk.requiredColumnsWithTypes b
  unfold extendedSampleBlock
  rw [h1, List.any_append]
  have : extras.any (fun c => c.isConstColumn) = false := by
    rw [List.any_eq_false]
    intro c hc
    simp [ColumnWithTypeAndName.isConstColumn, h2 c hc]
  rw [this, Bool.or_false]

theorem finishProjection_eq (result : ProjectionDescription) (sk pk : KeyDescription) :
    finishProjection result sk pk =
      if (extendedSampleBlock result.sample_block sk).any (fun c => c.isConstColumn) = true then
        .error ErrorCode.NOT_IMPLEMENTED
      else
        .ok { result with
          metadata := some
            { columns :=
                { columns := Block.getNamesAndTypesList
                    (extendedSampleBlock result.sample_block sk) }
              partition_key := KeyDescription.buildEmptyKey
              sorting_key := sk
              primary_key := pk } } := rfl

theorem finishProjection_ok_block (result p : ProjectionDescription) (sk pk : KeyDescription)
    (h : finishProjection result sk pk = .ok p) :
    p.sample_block = result.sample_block ∧
    (extendedSampleBlock result.sample_block sk).any (fun c => c.isConstColumn) = false ∧
    ∃ m, p.metadata = some m ∧ m.sorting_key.requiredColumnsWithTypes = sk.requiredColumnsWithTypes ∧
      m.columns.columns = Block.getNamesAndTypesList (extendedSampleBlock result.sample_block sk) := by
  rw [finishProjection_eq] at h
  split at h
  · exact Except.noConfusion h
  · rename_i hc
    injection h with h
    subst h
    exact ⟨rfl, by simpa using hc, _, rfl, rfl, rfl⟩

/-- What a successful call of `getProjectionFromAST` establishes about the sample block. -/
theorem getProjectionFromAST_ok_block (ext : Externals) (definition_ast : AST)
    (columns : ColumnsDescription) (ctx : Context) (p : ProjectionDescription)
    (h : getProjectionFromAST ext definition_ast columns ctx = .ok p) :
    ∃ name w s g o select,
      definition_ast = .projectionDeclaration name (some (.projectionSelectQuery w s g o)) ∧
      ext.interpret (ext.cloneToASTSelect (.projectionSelectQuery w s g o)) ctx columns
        = .ok select ∧
      p.sample_block = select.sampleBlock ∧
      ∃ m, p.metadata = some m ∧
        (extendedSampleBlock p.sample_block m.sorting_key).any (fun c => c.isConstColumn) = false ∧
        m.columns.columns
          = Block.getNamesAndTypesList (extendedSampleBlock p.sample_block m.sorting_key) := by
  unfold getProjectionFromAST at h
  split at h
  · split at h <;> exact Except.noConfusion h
  · rename_i name w s g o
    split at h
    · exact Except.noConfusion h
    · simp only at h
      split at h
      · exact Except.noConfusion h
      · rename_i select hsel
        refine ⟨name, w, s, g, o, select, rfl, hsel, ?_⟩
        split at h
        · split at h
          · split at h
            · exact Except.noConfusion h
            · split at h
              · exact Except.noConfusion h
              · obtain ⟨h1, h2, m, h3, h4, h5⟩ := finishProjection_ok_block _ _ _ _ h
                simp only at h1 h2 h5
                refine ⟨h1, m, h3, ?_, ?_⟩
                · rw [h1]
                  unfold extendedSampleBlock at h2 ⊢
                  rw [h4]
                  exact h2
                · rw [h1, h5]
                  unfold extendedSampleBlock
                  rw [h4]
          · split at h
            · exact Except.noConfusion h
            · split at h
              · exact Except.noConfusion h
              · obtain ⟨h1, h2, m, h3, h4, h5⟩ := finishProjection_ok_block _ _ _ _ h
                simp only at h1 h2 h5
                refine ⟨h1, m, h3, ?_, ?_⟩
                · rw [h1]
                  unfold extendedSampleBlock at h2 ⊢
                  rw [h4]
                  exact h2
                · rw [h1, h5]
                  unfold extendedSampleBlock
                  rw [h4]
        · exact Except.noConfusion h
  · split at h <;> exact Except.noConfusion h
  · exact Except.noConfusion h

end DB.ProjectionDescription

namespace DB.ProjectionDescription

/-- C12. Once the query of a declaration is analysed and the sorting key derived,
`getProjectionFromAST` throws `NOT_IMPLEMENTED` whenever a column of the sample block extended
with the columns the sorting key requires is constant. Consequently every definition it returns
has a sample block, and an extended block from which the metadata columns are taken, without
constant column; and a declaration whose select list is a bare literal, which the analysis
gives a constant column, yields no definition. -/
theorem constant_column_rejected (ext : Externals) (columns : ColumnsDescription)
    (ctx : Context) :
    (∀ (name : String) (w s g o w1 s1 wh1 g1 o1 : Option AST) (select : SelectAnalysis)
        (sk : KeyDescription),
      name ≠ "" →
      ext.cloneToASTSelect (.projectionSelectQuery w s g o) = .selectQuery w1 s1 wh1 g1 o1 →
      ext.interpret (.selectQuery w1 s1 wh1 g1 o1) ctx columns = .ok select →
      ((select.hasAggregation = true ∧ o = none ∧
          ∃ ks pk, aggregateKeys ext g1 select.sampleBlock ctx = .ok (ks, sk, pk)) ∨
        (select.hasAggregation = false ∧ ext.getSortingKeyFromAST o columns ctx = .ok sk ∧
          ∃ pk, ext.getKeyFromAST o columns ctx = .ok pk)) →
      (extendedSampleBlock select.sampleBlock sk).any (fun c => c.isConstColumn) = true →
      getProjectionFromAST ext
        (.projectionDeclaration name (some (.projectionSelectQuery w s g o))) columns ctx
        = .error ErrorCode.NOT_IMPLEMENTED) ∧
    (∀ definition_ast p, getProjectionFromAST ext definition_ast columns ctx = .ok p →
      (∀ c ∈ p.sample_block, c.isConstColumn = false) ∧
      ∃ m, p.metadata = some m ∧
        (∀ c ∈ extendedSampleBlock p.sample_block m.sorting_key, c.isConstColumn = false) ∧
        m.columns.columns
          = Block.getNamesAndTypesList (extendedSampleBlock p.sample_block m.sorting_key)) ∧
    (∀ (name : String) (w g o : Option AST) (value : Int),
      (∀ select,
        ext.interpret
            (ext.cloneToASTSelect
              (.projectionSelectQuery w (some (.expressionList [AST.literal value])) g o))
            ctx columns = .ok select →
        select.sampleBlock.any (fun c => c.isConstColumn) = true) →
      ∀ p, getProjectionFromAST ext
          (.projectionDeclaration name
            (some (.projectionSelectQuery w (some (.expressionList [AST.literal value])) g o)))
          columns ctx ≠ .ok p) := by
  refine ⟨?_, ?_, ?_⟩
  · intro name w s g o w1 s1 wh1 g1 o1 select sk hname hclone hsel hkeys hconst
    unfold getProjectionFromAST
    simp only [hname, if_false, hclone, hsel]
    rcases hkeys with ⟨hagg, ho, ks, pk, hk⟩ | ⟨hagg, hs, pk, hk⟩
    · subst ho
      simp only [hagg, if_true, Option.isSome_none, Bool.false_eq_true, if_false, hk]
      rw [finishProjection_eq]
      simp only [hconst, if_true]
    · simp only [hagg, Bool.false_eq_true, if_false, hs, hk]
      rw [finishProjection_eq]
      simp only [hconst, if_true]
  · intro definition_ast p h
    obtain ⟨name, w, s, g, o, select, _, _, hb, m, hm, hc, hcols⟩ :=
      getProjectionFromAST_ok_block ext definition_ast columns ctx p h
    have hall := List.any_eq_false.mp hc
    refine ⟨?_, m, hm, ?_, hcols⟩
    · rw [extendedSampleBlock_any_const] at hc
      intro c hcm
      have := List.any_eq_false.mp hc c hcm
      simpa using this
    · intro c hcm
      have := hall c hcm
      simpa using this
  · intro name w g o value hlit p h
    obtain ⟨name1, w1, s1, g1, o1, select, hd, hsel, hb, m, _, hc, _⟩ :=
      getProjectionFromAST_ok_block ext _ columns ctx p h
    injection hd with _ hq
    injection hq with hq
    injection hq with hw hs hg ho
    subst hw hs hg ho
    have h1 := hlit select hsel
    rw [extendedSampleBlock_any_const, hb, h1] at hc
    exact Bool.noConfusion hc

/-- Witness of C12: with an analysis that gives a literal a constant column, the declaration
`c (SELECT 1)` is rejected with `NOT_IMPLEMENTED`, and the definition built from
`q (SELECT x ORDER BY x)` has no constant column. -/
theorem constant_column_rejected_witness :
    getProjectionFromAST Examples.extConstants Examples.declarationLiteral Examples.noColumns
      Examples.noSettings = .error ErrorCode.NOT_IMPLEMENTED ∧
    ∃ p, getProjectionFromAST Examples.extConstants Examples.declarationOrdered
        Examples.noColumns Examples.noSettings = .ok p ∧
      ∀ c ∈ p.sample_block, c.isConstColumn = false :=
  ⟨(constant_column_rejected Examples.extConstants Examples.noColumns Examples.noSettings).1
      "c" none (some (.expressionList [AST.literal 1])) none none none _ none none none _
      { definition_ast := none, requiredColumnsWithTypes := [] }
      (by decide) rfl rfl (Or.inr ⟨rfl, rfl, _, rfl⟩) rfl,
    _, rfl,
    ((constant_column_rejected Examples.extConstants Examples.noColumns Examples.noSettings).2.1
      Examples.declarationOrdered _ rfl).1⟩

end DB.ProjectionDescription

/-! ## The factory `getMinMaxCountProjection` -/

namespace DB.ProjectionDescription

theorem constantPositions_ge (b : Block) : ∀ i, ∀ j ∈ constantPositions i b, i ≤ j := by
  induction b with
  | nil => intro i j hj; simp [constantPositions] at hj
  | cons c rest ih =>
    intro i j hj
    simp only [constantPositions] at hj
    split at hj
    · rcases List.mem_cons.mp hj with h | h
      · omega
      · have := ih (i + 1) j h
        omega
    · have := ih (i + 1) j hj
      omega

theorem eraseFrom_cons_lt (ps : List Nat) (b : Block) :
    ∀ i j, j < i → Block.eraseFrom (j :: ps) i b = Block.eraseFrom ps i b := by
  induction b with
  | nil => intro i j _; simp [Block.eraseFrom]
  | cons c rest ih =>
    intro i j hj
    have hne : i ≠ j := by omega
    simp only [Block.eraseFrom, List.mem_cons, hne, false_or]
    rw [ih (i + 1) j (by omega)]

theorem eraseFrom_constantPositions (b : Block) :
    ∀ i, Block.eraseFrom (constantPositions i b) i b
      = b.filter (fun c => !c.isConstColumn) := by
  induction b with
  | nil => intro i; simp [Block.eraseFrom]
  | cons c rest ih =>
    intro i
    by_cases hc : c.isConstColumn = true
    · simp only [constantPositions, hc, if_true, Block.eraseFrom, List.mem_cons, true_or,
        List.filter, Bool.not_true]
      rw [eraseFrom_cons_lt _ _ (i + 1) i (by omega), ih (i + 1)]
    · have hc1 : c.isConstColumn = false := by simpa using hc
      have hnot : i ∉ constantPositions (i + 1) rest := by
        intro hm
        have := constantPositions_ge rest (i + 1) i hm
        omega
      simp only [constantPositions, hc1, Bool.false_eq_true, if_false, Block.eraseFrom, hnot,
        List.filter, Bool.not_false]
      rw [ih (i + 1)]

theorem erase_constants (b : Block) :
    Block.erase b (constantPositions 0 b) = b.filter (fun c => !c.isConstColumn) :=
  eraseFrom_constantPositions b 0

theorem getD_append_pair (front : List String) (a last : String) :
    (front ++ [a, last]).getD front.length "" = a := by
  induction front with
  | nil => rfl
  | cons x rest ih => simpa [List.getD_cons_succ] using ih

theorem second_to_last (l : List String) (h : 2 ≤ l.length) :
    ∃ front last, l = front ++ [l.getD (l.length - 2) "", last] := by
  rcases List.eq_nil_or_concat l with h0 | ⟨l1, last, h1⟩
  · subst h0; simp at h
  · rcases List.eq_nil_or_concat l1 with h0 | ⟨front, a, h2⟩
    · subst h0; subst h1; simp at h
    · have hl : l = front ++ [a, last] := by
        rw [h1, h2]; simp
      refine ⟨front, last, ?_⟩
      have hlen : l.length - 2 = front.length := by
        rw [hl]; simp
      rw [hlen]
      have hget : l.getD front.length "" = a := by
        rw [hl]; exact getD_append_pair front a last
      rw [hget]
      exact hl

theorem minMaxCountSelectList_eq (cs : List String) (pk : AST) (more : List AST) :
    minMaxCountSelectList cs (pk :: more) = expectedSelectList cs pk := by
  induction cs with
  | nil => simp [minMaxCountSelectList, expectedSelectList, AST.clone]
  | cons c rest ih =>
    simp only [minMaxCountSelectList, List.foldr, List.cons_append, expectedSelectList] at ih ⊢
    rw [ih]

theorem expectedSelectList_max (f : AST → String) (cs : List String) (pk : AST) :
    ((expectedSelectList cs pk).map f).getD (2 * cs.length + 1) "" = f (makeASTFunction "max" [pk]) ∧
    (expectedSelectList cs pk).length = 2 * cs.length + 3 := by
  induction cs with
  | nil => simp [expectedSelectList]
  | cons c rest ih =>
    have h2 : 2 * (c :: rest).length + 1 = (2 * rest.length + 1) + 1 + 1 := by
      simp only [List.length_cons]; omega
    refine ⟨?_, ?_⟩
    · rw [h2]
      simp only [expectedSelectList, List.map_cons, List.getD_cons_succ]
      exact ih.1
    · simp only [expectedSelectList, List.length_cons, ih.2]
      omega

/-- What a successful call of `getMinMaxCountProjection` establishes. -/
theorem getMinMaxCountProjection_ok (ext : Externals) (columns : ColumnsDescription)
    (partition_columns : Option AST) (minmax_columns : List String)
    (primary_key_asts : List AST) (ctx : Context) (p : ProjectionDescription)
    (h : getMinMaxCountProjection ext columns partition_columns minmax_columns
      primary_key_asts ctx = .ok p) :
    ∃ select,
      ext.interpret
          (ext.cloneToASTSelect
            (.projectionSelectQuery none
              (some (.expressionList (minMaxCountSelectList minmax_columns primary_key_asts)))
              (minMaxCountGroupBy ext partition_columns) none))
          ctx columns = .ok select ∧
      p.definition_ast = some
        (.projectionSelectQuery none
          (some (.expressionList (minMaxCountSelectList minmax_columns primary_key_asts)))
          (minMaxCountGroupBy ext partition_columns) none) ∧
      p.sample_block = Block.erase select.sampleBlock (constantPositions 0 select.sampleBlock) ∧
      p.partition_value_indices =
        (if select.need_aggregate = true then
            select.aggregationKeys.filter (fun key => Block.has p.sample_block key.1)
          else []).foldl
          (fun v key => v ++ [Block.getPositionByName p.sample_block key.1]) [] ∧
      p.primary_key_max_column_name =
        (if ¬ primary_key_asts.isEmpty = true ∧
            Block.columns p.sample_block
              = 2 * (minmax_columns.length + 1) + 1 + p.partition_value_indices.length then
          (Block.getNames p.sample_block).getD ((Block.getNames p.sample_block).length - 2) ""
        else "") := by
  unfold getMinMaxCountProjection at h
  simp only at h
  split at h
  · exact Except.noConfusion h
  · rename_i select hsel
    injection h with h
    subst h
    exact ⟨select, hsel, rfl, rfl, rfl, rfl⟩

theorem getMinMaxCountProjection_returns (ext : Externals) (columns : ColumnsDescription)
    (partition_columns : Option AST) (minmax_columns : List String)
    (primary_key_asts : List AST) (ctx : Context) (select : SelectAnalysis)
    (hsel : ext.interpret
        (ext.cloneToASTSelect
          (.projectionSelectQuery none
            (some (.expressionList (minMaxCountSelectList minmax_columns primary_key_asts)))
            (minMaxCountGroupBy ext partition_columns) none))
        ctx columns = .ok select) :
    ∃ p, getMinMaxCountProjection ext columns partition_columns minmax_columns
      primary_key_asts ctx = .ok p := by
  unfold getMinMaxCountProjection
  simp only [hsel]
  exact ⟨_, rfl⟩

end DB.ProjectionDescription

namespace DB.ProjectionDescription

/-- C13. For a list of minmax columns, a primary key whose first expression is `pk` and no
partition expressions, `getMinMaxCountProjection` returns a definition whose select list is
`min` and `max` of each minmax column in order, then `min(pk)`, `max(pk)`, `count()`. When the
analysis of that query has `2n + 3` columns, none constant, and no aggregation keys (there is
no GROUP BY), the sample block is kept whole and `primary_key_max_column_name` is the name of
its column at the position of `max(pk)` in the select list: whenever the column names are the
names of the select expressions, it is the name of `max(pk)`. -/
theorem minmax_count_shape (ext : Externals) (columns : ColumnsDescription) (ctx : Context)
    (partition_columns : Option AST) (cs : List String) (pk : AST) (more : List AST)
    (select : SelectAnalysis)
    (hpart : partition_columns = none ∨ ∃ pc, partition_columns = some pc ∧ pc.children = [])
    (hsel : ext.interpret
        (ext.cloneToASTSelect
          (.projectionSelectQuery none (some (.expressionList (expectedSelectList cs pk)))
            none none))
        ctx columns = .ok select)
    (hlen : Block.columns select.sampleBlock = 2 * cs.length + 3)
    (hconst : ∀ c ∈ select.sampleBlock, c.isConstColumn = false)
    (hkeys : select.aggregationKeys = []) :
    ∃ p, getMinMaxCountProjection ext columns partition_columns cs (pk :: more) ctx = .ok p ∧
      p.definition_ast = some
        (.projectionSelectQuery none (some (.expressionList (expectedSelectList cs pk)))
          none none) ∧
      p.sample_block = select.sampleBlock ∧
      p.primary_key_max_column_name
        = (Block.getNames select.sampleBlock).getD (2 * cs.length + 1) "" ∧
      (∀ f : AST → String, Block.getNames select.sampleBlock = (expectedSelectList cs pk).map f →
        p.primary_key_max_column_name = f (makeASTFunction "max" [pk])) := by
  have hg : minMaxCountGroupBy ext partition_columns = none := by
    rcases hpart with h | ⟨pc, h, hch⟩
    · subst h; rfl
    · subst h; simp [minMaxCountGroupBy, hch]
  have hl := minMaxCountSelectList_eq cs pk more
  have hsel1 : ext.interpret
      (ext.cloneToASTSelect
        (.projectionSelectQuery none
          (some (.expressionList (minMaxCountSelectList cs (pk :: more))))
          (minMaxCountGroupBy ext partition_columns) none))
      ctx columns = .ok select := by
    rw [hl, hg]; exact hsel
  obtain ⟨p, hp⟩ :=
    getMinMaxCountProjection_returns ext columns partition_columns cs (pk :: more) ctx select hsel1
  obtain ⟨select1, hs1, hdef, hblock, hpvi, hpk⟩ :=
    getMinMaxCountProjection_ok ext columns partition_columns cs (pk :: more) ctx p hp
  rw [hsel1] at hs1
  injection hs1 with hs1
  subst hs1
  have hb : p.sample_block = select.sampleBlock := by
    rw [hblock, erase_constants, List.filter_eq_self]
    intro c hc
    simp [hconst c hc]
  have hv : p.partition_value_indices = [] := by
    rw [hpvi, hkeys]
    simp
  have hname : p.primary_key_max_column_name
      = (Block.getNames select.sampleBlock).getD (2 * cs.length + 1) "" := by
    rw [hpk, hv, hb]
    have hcols : Block.columns select.sampleBlock = 2 * (cs.length + 1) + 1 + ([] : List Nat).length := by
      rw [hlen]; simp; omega
    have hn : (Block.getNames select.sampleBlock).length - 2 = 2 * cs.length + 1 := by
      have : (Block.getNames select.sampleBlock).length = 2 * cs.length + 3 := by
        simpa [Block.getNames, Block.columns] using hlen
      omega
    rw [if_pos ⟨by simp, hcols⟩, hn]
  refine ⟨p, hp, ?_, hb, hname, ?_⟩
  · rw [hdef, hl, hg]
  · intro f hf
    rw [hname, hf]
    exact (expectedSelectList_max f cs pk).1

/-- Witness of C13: minmax column "d" and primary key `id`, no partition expressions. -/
theorem minmax_count_shape_witness :
    ∃ p, getMinMaxCountProjection Examples.ext Examples.noColumns none ["d"]
        [AST.identifier "id"] Examples.noSettings = .ok p ∧
      p.definition_ast = some
        (.projectionSelectQuery none
          (some (.expressionList
            [makeASTFunction "min" [AST.identifier "d"], makeASTFunction "max" [AST.identifier "d"],
              makeASTFunction "min" [AST.identifier "id"],
              makeASTFunction "max" [AST.identifier "id"], makeASTFunction "count" []]))
          none none) ∧
      p.primary_key_max_column_name
        = Examples.columnName (makeASTFunction "max" [AST.identifier "id"]) := by
  obtain ⟨p, hp, hdef, _, _, hf⟩ :=
    minmax_count_shape Examples.ext Examples.noColumns Examples.noSettings none ["d"]
      (AST.identifier "id") [] _ (Or.inl rfl) rfl rfl (by decide) rfl
  exact ⟨p, hp, hdef, hf Examples.columnName rfl⟩

/-- C14 as stated fails when no primary key is supplied. With minmax column "d", no primary key
and no partition expressions the sample block has 3 = 2 × (1 + 0) + 1 + 0 columns, none
stripped, and `primary_key_max_column_name` is left empty instead of being the name of the
second-to-last column. -/
theorem no_primary_key_counterexample :
    ∃ p, getMinMaxCountProjection Examples.ext Examples.noColumns none ["d"] []
        Examples.noSettings = .ok p ∧
      p.partition_value_indices = [] ∧
      Block.columns p.sample_block = 2 * (1 + 0) + 1 + p.partition_value_indices.length ∧
      Block.getNames p.sample_block = ["min()", "max()", "count()"] ∧
      p.primary_key_max_column_name = "" ∧ p.primary_key_max_column_name ≠ "max()" :=
  ⟨_, rfl, rfl, rfl, rfl, rfl, by decide⟩

/-- C14 (as amended). In a definition returned by `getMinMaxCountProjection` the sample block
has no constant column. If a primary key is supplied and the number of columns of the sample
block is exactly 2 × (number of minmax columns + 1) + 1 + number of partition value indices,
`primary_key_max_column_name` is the name of the second-to-last column; if no primary key is
supplied, or the number of columns is different, it is left empty. -/
theorem primary_key_max_column_recorded (ext : Externals) (columns : ColumnsDescription)
    (partition_columns : Option AST) (minmax_columns : List String)
    (primary_key_asts : List AST) (ctx : Context) (p : ProjectionDescription)
    (h : getMinMaxCountProjection ext columns partition_columns minmax_columns
      primary_key_asts ctx = .ok p) :
    (∀ c ∈ p.sample_block, c.isConstColumn = false) ∧
    (primary_key_asts ≠ [] →
      Block.columns p.sample_block
        = 2 * (minmax_columns.length + 1) + 1 + p.partition_value_indices.length →
      ∃ front last,
        Block.getNames p.sample_block = front ++ [p.primary_key_max_column_name, last]) ∧
    (primary_key_asts = [] ∨
      Block.columns p.sample_block
        ≠ 2 * (minmax_columns.length + 1) + 1 + p.partition_value_indices.length →
      p.primary_key_max_column_name = "") := by
  obtain ⟨select, _, _, hblock, _, hpk⟩ :=
    getMinMaxCountProjection_ok ext columns partition_columns minmax_columns primary_key_asts
      ctx p h
  refine ⟨?_, ?_, ?_⟩
  · rw [hblock, erase_constants]
    intro c hc
    have := (List.mem_filter.mp hc).2
    simpa using this
  · intro hne hcols
    have hem : ¬ primary_key_asts.isEmpty = true := by
      cases primary_key_asts with
      | nil => exact absurd rfl hne
      | cons x rest => simp
    rw [hpk, if_pos ⟨hem, hcols⟩]
    apply second_to_last
    have : (Block.getNames p.sample_block).length = Block.columns p.sample_block := by
      simp [Block.getNames, Block.columns]
    omega
  · intro hcase
    rw [hpk]
    rcases hcase with h0 | h0
    · subst h0
      simp
    · rw [if_neg (fun hc => h0 hc.2)]

/-- Witness of C14 (as amended): minmax column "d" and primary key `id`; the sample block has
5 columns and `primary_key_max_column_name` is the name of the fourth. -/
theorem primary_key_max_column_recorded_witness :
    ∃ p, getMinMaxCountProjection Examples.ext Examples.noColumns none ["d"]
        [AST.identifier "id"] Examples.noSettings = .ok p ∧
      Block.columns p.sample_block = 5 ∧
      ∃ front last,
        Block.getNames p.sample_block = front ++ [p.primary_key_max_column_name, last] :=
  ⟨_, rfl, rfl,
    (primary_key_max_column_recorded Examples.ext Examples.noColumns none ["d"]
      [AST.identifier "id"] Examples.noSettings _ rfl).2.1 (fun h => List.noConfusion h) rfl⟩

end DB.ProjectionDescription

/-! ## `calculate`: the row-exists filter -/

namespace DB.ProjectionDescription

end DB.ProjectionDescription
